import Mathlib

/-!
# Verification of the synapse-mcp storage-and-index core

Shallow embedding of the storage subsystem of the `synapse-mcp` repository:

* `src/synapse/tools/search_indexer.py` — inverted search index
  (`SearchIndexer.add_conversation`, `remove_conversation`,
  `search_conversations`, `rebuild_index`, tokenization and scoring);
* `src/synapse/storage/file_manager.py` — file store
  (`FileManager._atomic_write_json`, `save_conversation`,
  `load_conversation`, `list_conversations`, `load_all_solutions`,
  `_fix_conversation_data`, `_file_lock`);
* `src/synapse/models/conversation.py` — the record types.

Modelling conventions, used throughout:

* Python strings are Lean `String`s; character-level operations
  (`lower`, `translate`, `split`, slicing) are modelled on `String.data`
  (`List Char`), matching Python's code-point semantics.
* Python `set`s of strings are modelled as insertion-ordered duplicate-free
  `List String`s; only membership and cardinality of sets are ever used by
  the code, so the (unspecified) iteration order of a CPython set is
  refined to first-insertion order.
* Python `dict`s are association lists; assignment replaces the value of an
  existing key in place and appends a fresh key at the end, as CPython
  dicts do.
* Python `float` arithmetic in the relevance score is modelled over `ℚ`
  (the weights 0.5/0.3/0.2/0.05 become the exact rationals); every
  property proved here is robust to that abstraction, and `round(x, 3)`
  is modelled as rounding `1000*x` to an integer (Python rounds ties to
  even; no statement below depends on tie behaviour).
* `datetime` values are modelled at day granularity (`year`, `month`,
  `day`); `(now - created_at).days` becomes a difference of epoch-day
  numbers computed by the standard civil-calendar conversion, and the
  `isoformat`/`fromisoformat` round trip through the stored JSON is the
  identity on these values.
* I/O failure points that the Python code catches (`json.dump` raising,
  `os.replace` raising, lock acquisition timing out) are explicit
  parameters of the embedded functions, so that every catch branch of the
  source is a reachable branch of the model.
-/

namespace Synapse

/-! ## Python string primitives -/

/-- `string.punctuation`: the 32 ASCII punctuation characters removed by
`_tokenize_text` via `str.translate`. -/
def pyPunctuation : List Char :=
  ['!', Char.ofNat 34, '#', '$', '%', '&', Char.ofNat 39, '(', ')', '*',
   '+', ',', '-', '.', '/', ':', ';', '<', '=', '>', '?', '@', '[',
   Char.ofNat 92, ']', '^', '_', Char.ofNat 96, Char.ofNat 123, '|',
   Char.ofNat 125, '~']

/-- Python `str.lower()` (ASCII case folding, which is all the source uses). -/
def pyLower (s : String) : String :=
  String.mk (s.data.map Char.toLower)

/-- Helper for `pyWords`: accumulate the current word (reversed) while
scanning. -/
def pyWordsAux : List Char → List Char → List (List Char)
  | acc, [] => if acc.isEmpty then [] else [acc.reverse]
  | acc, c :: cs =>
    if c.isWhitespace then
      if acc.isEmpty then pyWordsAux [] cs
      else acc.reverse :: pyWordsAux [] cs
    else pyWordsAux (c :: acc) cs

/-- Python `str.split()` with no argument: split on runs of whitespace,
returning no empty parts. -/
def pyWords (s : List Char) : List (List Char) :=
  pyWordsAux [] s

/-- Python `needle in haystack` on strings: substring containment. -/
def hasInfix (needle : List Char) : List Char → Bool
  | [] => needle.isEmpty
  | c :: t => needle.isPrefixOf (c :: t) || hasInfix needle t

/-- Python `s.startswith(pre)`. -/
def pyStartsWith (s pre : String) : Bool :=
  pre.data.isPrefixOf s.data

/-- Python `str.isdigit()`: nonempty and all digits. -/
def pyIsDigit (s : String) : Bool :=
  !s.data.isEmpty && s.data.all Char.isDigit

/-- Python `int(s)` on a digit string. -/
def strToNat (s : String) : Nat :=
  s.data.foldl (fun n c => n * 10 + (c.toNat - 48)) 0

/-- Python truthiness of an optional string (`if category:` …). -/
def pyTruthyStr : Option String → Bool
  | none => false
  | some s => !s.data.isEmpty

/-- Python falsiness of `solution.get('language')`: missing, `None` or `""`. -/
def pyFalsyStr : Option String → Bool
  | none => true
  | some s => s.data.isEmpty

/-! ## Tokenization (`SearchIndexer._tokenize_text`) -/

/-- The stopword list of `_tokenize_text`. -/
def stopWords : List String :=
  ["the", "a", "an", "and", "or", "but", "in", "on", "at", "to", "for",
   "of", "with", "by", "is", "are", "was", "were", "be", "been", "have",
   "has", "had", "do", "does", "did"]

/-- Deduplicate a list keeping the first occurrence of each element;
models collecting strings into a Python `set`. -/
def dedupList (l : List String) : List String :=
  l.foldl (fun acc w => if w ∈ acc then acc else acc ++ [w]) []

/-- `SearchIndexer._tokenize_text`: lowercase, delete punctuation, split on
whitespace, keep words of length ≥ 2 that are not stopwords, collect into
a set. -/
def tokenize_text (text : String) : List String :=
  let lowered := text.data.map Char.toLower
  let noPunct := lowered.filter (fun c => ¬ pyPunctuation.contains c)
  let words := (pyWords noPunct).map String.mk
  dedupList (words.filter (fun w => 2 ≤ w.data.length ∧ w ∉ stopWords))

/-- `len(a.intersection(b))` for two sets represented as duplicate-free
lists. -/
def interCount (a b : List String) : Nat :=
  (a.filter (· ∈ b)).length

/-! ## Dates

`datetime` values at day granularity.  The conversation code only ever
uses `created_at.date()` (year/month for the storage path), full-date
comparison, and `(now - created_at).days`. -/

structure DateTime where
  year : Nat
  month : Nat
  day : Nat
deriving DecidableEq, Repr

/-- Days since 1970-01-01 of a civil date (Gregorian calendar, the
`days_from_civil` algorithm); models `datetime` subtraction `.days`. -/
def toEpochDay (d : DateTime) : Int :=
  let y : Int := if d.month ≤ 2 then (d.year : Int) - 1 else (d.year : Int)
  let era : Int := y / 400
  let yoe : Int := y - era * 400
  let m : Int := (d.month : Int)
  let doy : Int := (153 * (m + (if 2 < m then -3 else 9)) + 2) / 5 + (d.day : Int) - 1
  let doe : Int := yoe * 365 + yoe / 4 - yoe / 100 + doy
  era * 146097 + doe - 719468

/-- Python `date` strict comparison (lexicographic on year, month, day). -/
def dateLt (a b : DateTime) : Bool :=
  a.year < b.year ∨ (a.year = b.year ∧
    (a.month < b.month ∨ (a.month = b.month ∧ a.day < b.day)))

/-! ## Record types (`models/conversation.py`)

`Solution` and `ConversationRecord` as they sit in a stored JSON document:
`type` is the raw string field and `language` is optional, because
`_fix_conversation_data` runs on the raw dictionaries *before* pydantic
validation.  `to_dict`/`from_dict` are the data-model collaborators used
verbatim by the file store, so the store is modelled as holding the record
values themselves. -/

structure Sol where
  id : String
  type : String
  content : String
  language : Option String
  description : String
  tags : List String
  reusability_score : ℚ
  reference_count : Nat
  last_referenced : Option DateTime
deriving DecidableEq, Repr

structure Conv where
  id : String
  title : String
  content : String
  summary : String
  tags : List String
  category : String
  importance : Nat
  created_at : DateTime
  updated_at : DateTime
  solutions : List Sol
deriving DecidableEq, Repr

/-! ## Association lists (Python `dict`s) and string sets -/

/-- Lookup in a `dict` modelled as an association list. -/
def alookup {κ α : Type} [DecidableEq κ] (l : List (κ × α)) (k : κ) :
    Option α :=
  (l.find? (fun p => p.1 = k)).map (·.2)

/-- `dict` assignment `d[k] = v`: replace in place if the key exists,
append otherwise (CPython insertion-order semantics). -/
def aset {κ α : Type} [DecidableEq κ] : List (κ × α) → κ → α → List (κ × α)
  | [], k, v => [(k, v)]
  | p :: l, k, v => if p.1 = k then (k, v) :: l else p :: aset l k v

/-- `del d[k]`. -/
def adel {κ α : Type} [DecidableEq κ] : List (κ × α) → κ → List (κ × α)
  | [], _ => []
  | p :: l, k => if p.1 = k then adel l k else p :: adel l k

/-- Python `set.add` on a set modelled as a duplicate-free list. -/
def saddElem (s : List String) (x : String) : List String :=
  if x ∈ s then s else s ++ [x]

/-- Python `set.discard`. -/
def sdiscard (s : List String) (x : String) : List String :=
  s.filter (fun y => y ≠ x)

/-- Python `set.update` (union into the left set). -/
def listUnion (a b : List String) : List String :=
  b.foldl saddElem a

/-! ## The search index (`search_indexer.py`)

`SearchIndex` holds the keyword and tag inverted indexes and the metadata
index.  The `stats` block is recomputed on every save from the three maps
and is not touched by any claim, so it is omitted from the state. -/

/-- The denormalized per-conversation entry of `metadata_index`. -/
structure Metadata where
  title : String
  category : String
  importance : Nat
  created_at : DateTime
  updated_at : DateTime
  tags : List String
  summary : String
  content_length : Nat
  solutions_count : Nat
deriving DecidableEq, Repr

structure SearchIndex where
  keyword_index : List (String × List String)
  tag_index : List (String × List String)
  metadata_index : List (String × Metadata)
deriving DecidableEq, Repr

def emptyIndex : SearchIndex := ⟨[], [], []⟩

/-- `SearchIndexer._extract_keywords`: title tokens ∪ summary tokens ∪
lowercased nonempty tags ∪ the lowercased category (if nonempty). -/
def extract_keywords (c : Conv) : List String :=
  let kws := tokenize_text c.title
  let kws := listUnion kws (tokenize_text c.summary)
  let kws := listUnion kws ((c.tags.filter (fun t => !t.data.isEmpty)).map pyLower)
  if !c.category.data.isEmpty then listUnion kws [pyLower c.category] else kws

/-- `SearchIndexer._extract_keywords_from_metadata`: same derivation, from
the stored (summary-truncated) metadata entry. -/
def extract_keywords_from_metadata (md : Metadata) : List String :=
  let kws := tokenize_text md.title
  let kws := listUnion kws (tokenize_text md.summary)
  let kws := listUnion kws ((md.tags.filter (fun t => !t.data.isEmpty)).map pyLower)
  if !md.category.data.isEmpty then listUnion kws [pyLower md.category] else kws

/-- The metadata entry written by `add_conversation` (and `rebuild_index`):
note the summary is truncated to its first 200 characters. -/
def mk_metadata (c : Conv) : Metadata :=
  { title := c.title
    category := c.category
    importance := c.importance
    created_at := c.created_at
    updated_at := c.updated_at
    tags := c.tags
    summary := String.mk (c.summary.data.take 200)
    content_length := c.content.data.length
    solutions_count := c.solutions.length }

/-- `index.keyword_index[key].add(cid)` over a list of keys: the
`defaultdict(set)` access creates a missing set, then the id is added.
Used for the keyword loop, and — with the keys
`(tags.filter nonempty).map pyLower` — for the tag loop. -/
def set_add_fold (m : List (String × List String)) (keys : List String)
    (cid : String) : List (String × List String) :=
  keys.foldl (fun m k => aset m k (saddElem ((alookup m k).getD []) cid)) m

/-- `if key in index: set.discard(cid); delete the key if the set became
empty` over a list of keys; the removal-side counterpart of
`set_add_fold`. -/
def set_remove_fold (m : List (String × List String)) (keys : List String)
    (cid : String) : List (String × List String) :=
  keys.foldl
    (fun m k =>
      match alookup m k with
      | none => m
      | some s =>
        let s' := sdiscard s cid
        if s'.isEmpty then adel m k else aset m k s')
    m

/-- Insert one conversation's keywords, tags and metadata into an index;
this is the body shared verbatim by `add_conversation` and
`rebuild_index`. -/
def index_insert (idx : SearchIndex) (c : Conv) : SearchIndex :=
  let kidx := set_add_fold idx.keyword_index (extract_keywords c) c.id
  let tidx := set_add_fold idx.tag_index
    ((c.tags.filter (fun t => !t.data.isEmpty)).map pyLower) c.id
  ⟨kidx, tidx, aset idx.metadata_index c.id (mk_metadata c)⟩

/-- `SearchIndexer.add_conversation`: index the record and persist.  The
persistence step (`save_index`) is a whole-document JSON rewrite whose
success the model assumes; the returned flag is its result. -/
def add_conversation (idx : SearchIndex) (c : Conv) : Bool × SearchIndex :=
  (true, index_insert idx c)

/-- `SearchIndexer.remove_conversation`: recompute the keywords from the
stored metadata, discard the id from each keyword/tag set (deleting sets
that become empty), drop the metadata entry, persist. -/
def remove_conversation (idx : SearchIndex) (cid : String) :
    Bool × SearchIndex :=
  match alookup idx.metadata_index cid with
  | none => (false, idx)
  | some md =>
    let kidx := set_remove_fold idx.keyword_index
      (extract_keywords_from_metadata md) cid
    let tidx := set_remove_fold idx.tag_index
      ((md.tags.filter (fun t => !t.data.isEmpty)).map pyLower) cid
    (true, ⟨kidx, tidx, adel idx.metadata_index cid⟩)

/-! ## Search (`SearchIndexer.search_conversations`) -/

/-- One entry of the result list built by `search_conversations` (the
constant `"type": "conversation"` field is omitted). -/
structure SearchResult where
  id : String
  title : String
  summary : String
  tags : List String
  category : String
  importance : Nat
  created_at : DateTime
  match_score : ℚ
deriving DecidableEq, Repr

/-- Python `round(x, 3)`.  Python rounds ties to even; Mathlib's `round`
rounds ties up.  The two differ only when `1000*x` is exactly a
half-integer, which no statement below depends on. -/
def pyRound3 (x : ℚ) : ℚ :=
  (round (x * 1000) : ℚ) / 1000

/-- `SearchIndexer._search_by_keywords`: union of the keyword-index sets of
all query tokens. -/
def search_by_keywords (idx : SearchIndex) (queryWords : List String) :
    List String :=
  queryWords.foldl
    (fun acc w =>
      match alookup idx.keyword_index w with
      | some s => listUnion acc s
      | none => acc) []

/-- `SearchIndexer._search_by_tags`: union of the tag-index sets of the
lowercased search tags. -/
def search_by_tags (idx : SearchIndex) (tags : List String) : List String :=
  tags.foldl
    (fun acc t =>
      match alookup idx.tag_index (pyLower t) with
      | some s => listUnion acc s
      | none => acc) []

/-- `(now - created).days` at day granularity. -/
def daysOld (now created : DateTime) : Int :=
  toEpochDay now - toEpochDay created

/-- `SearchIndexer._matches_time_range`: `"week"` means within 7 days,
`"month"` within 30, anything else matches. -/
def matches_time_range (md : Metadata) (timeRange : String) (now : DateTime) :
    Bool :=
  if timeRange = "week" then daysOld now md.created_at ≤ 7
  else if timeRange = "month" then daysOld now md.created_at ≤ 30
  else true

/-- `SearchIndexer._calculate_relevance_score`, step for step: title
overlap (weight 0.5), tag overlap (0.3) when search tags were given,
summary overlap (0.2), an importance boost (importance/5 · 0.05), a
freshness boost for records at most 30 days old, capped at 1.0. -/
def calculate_relevance_score (md : Metadata) (queryWords : List String)
    (tags : Option (List String)) (now : DateTime) : ℚ :=
  let score : ℚ := 0
  -- 1. title match (50% weight)
  let titleWords := tokenize_text md.title
  let titleMatches := interCount queryWords titleWords
  let score :=
    if 0 < titleMatches ∧ queryWords ≠ [] then
      score + (titleMatches : ℚ) / (queryWords.length : ℚ) * 0.5
    else score
  -- 2. tag match (30% weight), only when the caller passed tags
  let score :=
    match tags with
    | some ts =>
      if ts ≠ [] then
        let conversationTags := dedupList (md.tags.map pyLower)
        let searchTags := dedupList (ts.map pyLower)
        let tagMatches := interCount searchTags conversationTags
        if 0 < tagMatches then
          score + (tagMatches : ℚ) / (searchTags.length : ℚ) * 0.3
        else score
      else score
    | none => score
  -- 3. summary match (20% weight)
  let summaryWords := tokenize_text md.summary
  let summaryMatches := interCount queryWords summaryWords
  let score :=
    if 0 < summaryMatches ∧ queryWords ≠ [] then
      score + (summaryMatches : ℚ) / (queryWords.length : ℚ) * 0.2
    else score
  -- 4. importance boost (5% weight)
  let score := score + (md.importance : ℚ) / 5 * 0.05
  -- 5. freshness boost (5% weight) for conversations ≤ 30 days old
  let dOld := daysOld now md.created_at
  let score :=
    if dOld ≤ 30 then score + ((30 - dOld : ℤ) : ℚ) / 30 * 0.05 else score
  min score 1

/-- The relevance score as §4.3 of the spec words it: a weighted sum of
title-token overlap at 50%, tag overlap at 30% and summary-token overlap
at 20%, plus an additive importance boost and a recency boost only for
records at most 30 days old.  (Spec-side definition, to be compared with
`calculate_relevance_score`.) -/
def weighted_sum_spec (md : Metadata) (queryWords : List String)
    (tags : Option (List String)) (now : DateTime) : ℚ :=
  let titleOverlap : ℚ :=
    if queryWords = [] then 0
    else (interCount queryWords (tokenize_text md.title) : ℚ) / (queryWords.length : ℚ)
  let tagOverlap : ℚ :=
    match tags with
    | some ts =>
      if ts ≠ [] then
        (interCount (dedupList (ts.map pyLower)) (dedupList (md.tags.map pyLower)) : ℚ)
          / ((dedupList (ts.map pyLower)).length : ℚ)
      else 0
    | none => 0
  let summaryOverlap : ℚ :=
    if queryWords = [] then 0
    else (interCount queryWords (tokenize_text md.summary) : ℚ) / (queryWords.length : ℚ)
  let importanceBoost : ℚ := (md.importance : ℚ) / 5 * 0.05
  let recencyBoost : ℚ :=
    if daysOld now md.created_at ≤ 30 then
      ((30 - daysOld now md.created_at : ℤ) : ℚ) / 30 * 0.05
    else 0
  titleOverlap * 0.5 + tagOverlap * 0.3 + summaryOverlap * 0.2 +
    importanceBoost + recencyBoost

/-- Descending order on result scores, the key of the final
`sort(key=…, reverse=True)`. -/
def scoreGE (a b : SearchResult) : Prop :=
  b.match_score ≤ a.match_score

instance : DecidableRel scoreGE := fun a b =>
  inferInstanceAs (Decidable (b.match_score ≤ a.match_score))

instance : IsTotal SearchResult scoreGE :=
  ⟨fun a b => le_total b.match_score a.match_score⟩

instance : IsTrans SearchResult scoreGE :=
  ⟨fun _ _ _ hab hbc => le_trans hbc hab⟩

/-- The result record `search_conversations` builds for a surviving
candidate, as a function of the candidate id, its metadata entry and the
rounded score. -/
def searchResultOf (cid : String) (md : Metadata) (score : ℚ) :
    SearchResult :=
  ⟨cid, md.title, md.summary, md.tags, md.category, md.importance,
   md.created_at, score⟩

/-- The body of the candidate loop of `search_conversations`: look up the
candidate's metadata (`continue` when missing), apply the
category/importance/time-range post-filters, and build the scored result
entry. -/
def search_filter (idx : SearchIndex) (queryWords : List String)
    (tags : Option (List String)) (category : Option String)
    (timeRange : Option String) (importanceMin : Option Nat)
    (now : DateTime) (cid : String) : Option SearchResult :=
  match alookup idx.metadata_index cid with
  | none => none
  | some md =>
    -- `if category and metadata.get("category") != category: continue`
    if pyTruthyStr category ∧ md.category ≠ category.getD "" then none
    -- `if importance_min and metadata.get("importance", 0) < importance_min`
    else if (importanceMin.getD 0) ≠ 0 ∧
        md.importance < importanceMin.getD 0 then none
    -- `if time_range and not self._matches_time_range(...)`
    else if pyTruthyStr timeRange ∧
        ¬ matches_time_range md (timeRange.getD "") now then none
    else
      some (searchResultOf cid md
        (pyRound3 (calculate_relevance_score md queryWords tags now)))

/-- `SearchIndexer.search_conversations`: tokenize the query, union
keyword candidates, intersect with tag candidates when tags were given,
apply the category/importance/time-range metadata post-filters, score each
survivor, sort by descending score (Python's sort is stable; so is this
insertion sort) and truncate to `limit`. -/
def search_conversations (idx : SearchIndex) (query : String)
    (tags : Option (List String)) (category : Option String)
    (timeRange : Option String) (importanceMin : Option Nat)
    (limit : Nat) (now : DateTime) : List SearchResult :=
  let queryWords := tokenize_text query
  let candidates := search_by_keywords idx queryWords
  -- `if tags:` — None and the empty list both skip the intersection
  let candidates :=
    match tags with
    | some ts =>
      if ts ≠ [] then
        let tagIds := search_by_tags idx ts
        if candidates ≠ [] then candidates.filter (· ∈ tagIds) else tagIds
      else candidates
    | none => candidates
  let filtered := candidates.filterMap
    (search_filter idx queryWords tags category timeRange importanceMin now)
  (List.insertionSort scoreGE filtered).take limit

/-! ## The file store (`file_manager.py`)

Two complementary views of the on-disk state are used:

* a flat map from path segments to file contents (`FS`), for the
  atomic-write algorithm, which manipulates a target file, a temp file in
  the same directory and a backup file;
* the conversations directory tree (`ConvTree`), for the operations that
  iterate year/month directories (`list_conversations`,
  `load_conversation`, `rebuild_index`).

File contents are the stored record values themselves: `to_dict` /
`from_dict` are the data-model serialization contract the store uses
verbatim, so serialization is the identity at this level. -/

/-- A path, as its list of segments relative to the data directory. -/
abbrev PathS := List String

structure FS (α : Type) where
  files : List (PathS × α)
deriving DecidableEq, Repr

def flookup {α : Type} (fs : FS α) (p : PathS) : Option α :=
  alookup fs.files p

def fset {α : Type} (fs : FS α) (p : PathS) (v : α) : FS α :=
  ⟨aset fs.files p v⟩

def fdel {α : Type} (fs : FS α) (p : PathS) : FS α :=
  ⟨adel fs.files p⟩

/-- Where `FileManager._atomic_write_json` can fail.  `failOpenTemp`:
creating the temp file raises (no temp file exists); `failSerialize`:
`json.dump`/`flush`/`fsync` raises inside the `with` block — the temp file
exists with partial content but the local `temp_path` was never assigned;
`failRename`: `temp_path.replace(file_path)` raises after the temp file
was fully written and `temp_path` assigned. -/
inductive WriteOutcome
  | ok
  | failOpenTemp
  | failSerialize
  | failRename
deriving DecidableEq, Repr

/-- `FileManager._atomic_write_json`.  Steps: (1) if the target exists and
`backup` is set, best-effort copy it to `backupPath` (`backupOk` is
whether that copy succeeds — a failure is logged and ignored); (2) write
the serialized data to a temp file in the target's directory; (3)
atomically rename the temp file onto the target.  On an exception in
steps 2–3: restore the target from the backup when one was taken, then
delete the temp file — but only if the `temp_path` local was assigned,
i.e. only for `failRename` — and return `False`. -/
def atomic_write_json {α : Type} [DecidableEq α] (fs : FS α)
    (filePath : PathS) (data : α) (backup : Bool) (backupPath : PathS)
    (backupOk : Bool) (tempPath : PathS) (partialData : α)
    (outcome : WriteOutcome) : Bool × FS α :=
  -- step 1: best-effort backup of an existing target
  let backupInfo : Option (PathS × α) :=
    if backup ∧ (flookup fs filePath).isSome ∧ backupOk then
      (flookup fs filePath).map (fun c => (backupPath, c))
    else none
  let fs :=
    match backupInfo with
    | some (bp, c) => fset fs bp c
    | none => fs
  match outcome with
  | .ok =>
    -- temp file written, fsynced and atomically renamed onto the target
    (true, fset fs filePath data)
  | .failOpenTemp =>
    -- NamedTemporaryFile raised: nothing was written;
    -- restore from backup if one was taken, return False
    let fs :=
      match backupInfo with
      | some (_, c) => fset fs filePath c
      | none => fs
    (false, fs)
  | .failSerialize =>
    -- json.dump/flush/fsync raised: the temp file holds partial content.
    -- The cleanup `if 'temp_path' in locals()` is False (temp_path is
    -- assigned only after fsync), so the temp file is NOT deleted.
    let fs := fset fs tempPath partialData
    let fs :=
      match backupInfo with
      | some (_, c) => fset fs filePath c
      | none => fs
    (false, fs)
  | .failRename =>
    -- rename raised: restore from backup, delete the temp file
    let fs := fset fs tempPath data
    let fs :=
      match backupInfo with
      | some (_, c) => fset fs filePath c
      | none => fs
    (false, fdel fs tempPath)

/-- `f"{month:02d}"`. -/
def pad2 (n : Nat) : String :=
  if n < 10 then "0" ++ toString n else toString n

/-- `FileManager._get_conversation_file_path`:
`conversations/{year}/{month:02d}/{id}.json`, relative to the data
directory. -/
def get_conversation_file_path (cid : String) (d : DateTime) : PathS :=
  ["conversations", toString d.year, pad2 d.month, cid ++ ".json"]

/-- `FileManager.save_conversation`: derive the path from
`conversation.created_at.date()`, serialize with `to_dict`, atomically
write.  Exceptions never escape (the body is wrapped in
`try/except: return False`); the model is total and returns the flag. -/
def save_conversation (fs : FS Conv) (c : Conv) (backupPath : PathS)
    (backupOk : Bool) (tempPath : PathS) (partialData : Conv)
    (outcome : WriteOutcome) : Bool × FS Conv :=
  atomic_write_json fs (get_conversation_file_path c.id c.created_at) c
    true backupPath backupOk tempPath partialData outcome

/-! ### Loading and repairing conversations -/

/-- Python `'needle' in content` after `content.lower()`, for
`_fix_conversation_data`'s keyword probes. -/
def contentHas (needle : String) (loweredContent : List Char) : Bool :=
  hasInfix needle.data loweredContent

/-- The language inference of `FileManager._fix_conversation_data` for a
code-type solution with no language, branch for branch. -/
def infer_language (content : String) : String :=
  let c := content.data.map Char.toLower
  if contentHas "npx" c || contentHas "npm" c || contentHas "yarn" c then
    "bash"
  else if contentHas "def " c || contentHas "import " c || contentHas "python" c then
    "python"
  else if contentHas "function" c || contentHas "const " c || contentHas "let " c then
    "javascript"
  else if contentHas "<?php" c || contentHas "php" c then
    "php"
  else if contentHas "#include" c || contentHas "int main" c then
    "c"
  else if contentHas "public class" c || contentHas "java" c then
    "java"
  else
    "shell"

/-- Per-solution repair of `_fix_conversation_data`: a code-type solution
whose `language` is missing or empty gets the inferred language. -/
def fix_solution (s : Sol) : Sol :=
  if s.type = "code" ∧ pyFalsyStr s.language then
    { s with language := some (infer_language s.content) }
  else s

/-- `FileManager._fix_conversation_data` applied to a loaded record: the
repair is in-memory only (the function returns the fixed dictionary and
nothing is written back). -/
def fix_conversation_data (c : Conv) : Conv :=
  { c with solutions := c.solutions.map fix_solution }

/-! ### The conversations directory tree -/

/-- The `conversations/` subtree: year directories, each holding month
directories, each holding files keyed by stem (all stored conversation
files carry the `.json` suffix). -/
abbrev ConvTree := List (String × List (String × List (String × Conv)))

/-- Whether the per-path lock for a file can be acquired within the
timeout; `_file_lock` raises `TimeoutError` on the paths where this is
false. -/
abbrev LockEnv := PathS → Bool

/-- The distinguishable errors of the storage layer's internal taxonomy. -/
inductive StorageError
  | lockTimeout (path : PathS)
  | ioError
deriving DecidableEq, Repr

/-- `self.lock_timeout = 30.0` — the bounded lock-acquisition timeout in
seconds. -/
def lock_timeout : ℚ := 30

/-- `FileManager._file_lock` as seen by its callers: either the lock is
acquired within `lock_timeout` seconds or a `TimeoutError` for that path
is raised. -/
def file_lock (env : LockEnv) (p : PathS) : Except StorageError Unit :=
  if env p then Except.ok () else Except.error (StorageError.lockTimeout p)

/-- `FileManager._load_conversation_from_file`: lock, parse, repair.  The
body is wrapped in `try/except Exception: return None`, so a lock timeout
(or any parse error) is swallowed into `None`. -/
def load_conversation_from_file (env : LockEnv) (p : PathS) (rec : Conv) :
    Option Conv :=
  match file_lock env p with
  | Except.error _ => none
  | Except.ok _ => some (fix_conversation_data rec)

def treeGet (tree : ConvTree) (yn mn stem : String) : Option Conv :=
  (alookup tree yn).bind (fun months =>
    (alookup months mn).bind (fun files => alookup files stem))

/-- The fallback scan of `load_conversation`: iterate year directories (in
directory order, digit-named only), then every month directory, and return
the first `{id}.json` hit.  Note: the `return` fires on file *existence*,
before the load is attempted. -/
def treeScan (tree : ConvTree) (stem : String) :
    Option (String × String × Conv) :=
  tree.findSome? (fun yd =>
    if pyIsDigit yd.1 then
      yd.2.findSome? (fun md =>
        (alookup md.2 stem).map (fun r => (yd.1, md.1, r)))
    else none)

/-- `FileManager.load_conversation` (with `search_all_dates=True`): try
the current-date directory first, else scan all year/month directories;
absent file and any caught exception both yield `None`. -/
def load_conversation (env : LockEnv) (tree : ConvTree) (now : DateTime)
    (cid : String) : Option Conv :=
  let fastY := toString now.year
  let fastM := pad2 now.month
  match treeGet tree fastY fastM cid with
  | some rec =>
    load_conversation_from_file env
      ["conversations", fastY, fastM, cid ++ ".json"] rec
  | none =>
    match treeScan tree cid with
    | some (yn, mn, rec) =>
      load_conversation_from_file env
        ["conversations", yn, mn, cid ++ ".json"] rec
    | none => none

/-! ### Listing conversations -/

/-- `a < b` on Python strings (and on `pathlib.Path` objects sharing a
parent): code-point lexicographic order. -/
def strLt (a b : String) : Prop := a.data < b.data

instance : DecidableRel strLt := fun a b =>
  inferInstanceAs (Decidable (a.data < b.data))

/-- `sorted(entries, reverse=True)` on directory entries keyed by name:
stable descending sort. -/
def nameGE {α : Type} (a b : String × α) : Prop := b.1.data ≤ a.1.data

instance {α : Type} : DecidableRel (nameGE (α := α)) := fun a b =>
  inferInstanceAs (Decidable (b.1.data ≤ a.1.data))

instance {α : Type} : IsTotal (String × α) nameGE :=
  ⟨fun a b => le_total b.1.data a.1.data⟩

instance {α : Type} : IsTrans (String × α) nameGE :=
  ⟨fun _ _ _ hab hbc => le_trans hbc hab⟩

def sortDescBy {α : Type} (l : List (String × α)) : List (String × α) :=
  List.insertionSort nameGE l

/-- The per-month body of the `list_conversations` traversal for the
month directory `md` of the year directory named `yn`: skip non-digit
month names, apply the first-of-month date filter, list the `.json`
files by name descending and keep the `conv_`-prefixed stems (each tagged
with its year and month directory name). -/
def month_block (yn : String) (startDate endDate : Option DateTime)
    (md : String × List (String × Conv)) :
    List (String × String × String) :=
  if ¬ pyIsDigit md.1 then [] else
  let currentDate : DateTime := ⟨strToNat yn, strToNat md.1, 1⟩
  -- `if start_date and current_date < start_date: continue`
  if startDate.any (fun s => dateLt currentDate s) then [] else
  -- `if end_date and current_date > end_date: continue`
  if endDate.any (fun e => dateLt e currentDate) then [] else
  (sortDescBy md.2).filterMap (fun f =>
    if pyStartsWith f.1 "conv_" then some (yn, md.1, f.1) else none)

/-- The per-year body of the traversal: skip non-digit year names,
iterate the month directories by name descending. -/
def year_block (startDate endDate : Option DateTime)
    (yd : String × List (String × List (String × Conv))) :
    List (String × String × String) :=
  if ¬ pyIsDigit yd.1 then [] else
  (sortDescBy yd.2).flatMap (month_block yd.1 startDate endDate)

/-- The traversal of `FileManager.list_conversations`, keeping with every
emitted id the names of the year and month directory it came from. -/
def list_entries (tree : ConvTree) (startDate endDate : Option DateTime) :
    List (String × String × String) :=
  (sortDescBy tree).flatMap (year_block startDate endDate)

/-- The "newest year/month first" order on tagged entries, as the
directory traversal realizes it: the (year-name, month-name) pair of a
later entry never exceeds that of an earlier one in lexicographic
code-point order (spec-side relation for the ordering claim; for the
uniform `str(year)`/zero-padded month names of equal width this is the
newest-first date order). -/
def monthKeyGE (a b : String × String × String) : Prop :=
  b.1.data < a.1.data ∨
    (b.1 = a.1 ∧ (b.2.1.data < a.2.1.data ∨ b.2.1 = a.2.1))

/-- The `limit` check `if limit and len(conversation_ids) >= limit:
return conversation_ids`: with a truthy (nonzero) limit the traversal
stops exactly when `limit` ids are collected, i.e. the result is the
`limit`-prefix of the full traversal; `limit=None` and `limit=0` disable
truncation. -/
def pyTrunc (limit : Option Nat) (l : List String) : List String :=
  match limit with
  | some k => if k ≠ 0 then l.take k else l
  | none => l

/-- `FileManager.list_conversations`. -/
def list_conversations (tree : ConvTree) (limit : Option Nat)
    (startDate endDate : Option DateTime) : List String :=
  pyTrunc limit ((list_entries tree startDate endDate).map (fun e => e.2.2))

/-! ### Rebuilding the index (`SearchIndexer.rebuild_index`) -/

/-- `SearchIndexer.rebuild_index`: build a fresh index, iterate
`file_manager.list_conversations()` (no limit, no date filter), load each
conversation and insert its keywords, tags and metadata — the same
insertion as `add_conversation` — then persist the new index. -/
def rebuild_index (env : LockEnv) (tree : ConvTree) (now : DateTime) :
    SearchIndex :=
  (list_conversations tree none none none).foldl
    (fun idx cid =>
      match load_conversation env tree now cid with
      | none => idx
      | some conv => index_insert idx conv)
    emptyIndex

/-! ### Solutions (`FileManager.load_all_solutions`) -/

/-- One step of the deduplication loop of `load_all_solutions`: a fresh
id is appended to the `unique_solutions` dict; an already-seen id
replaces its entry only when the newcomer's `reference_count` is strictly
higher. -/
def dedup_step (acc : List (String × Sol)) (s : Sol) : List (String × Sol) :=
  match acc.find? (fun p => p.1 = s.id) with
  | none => acc ++ [(s.id, s)]
  | some p =>
    if p.2.reference_count < s.reference_count then
      acc.map (fun q => if q.1 = s.id then (s.id, s) else q)
    else acc

/-- The deduplication loop of `load_all_solutions`: walk the gathered
solutions in order, keyed by id in an insertion-ordered dict, then take
`list(unique_solutions.values())`. -/
def dedup_solutions (sols : List Sol) : List Sol :=
  (sols.foldl dedup_step ([] : List (String × Sol))).map (·.2)

/-- `FileManager.load_all_solutions`: the solutions parsed from the
individual `sol_*.json` files (in glob order) followed by those parsed
from the `extracted_*_solutions_*.json` batch files, deduplicated. -/
def load_all_solutions (indiv batch : List Sol) : List Sol :=
  dedup_solutions (indiv ++ batch)

/-! ## Concrete instances used in closed statements -/

/-- The conversation of the spec's scenario (§8), used as a concrete
write input. -/
def convC7 : Conv :=
  ⟨"conv_20240302_abc", "Fix async bug", "content", "",
   ["python", "async"], "debugging", 5, ⟨2024, 3, 2⟩, ⟨2024, 3, 2⟩, []⟩

/-- A minimal stored conversation. -/
def convC3 : Conv :=
  ⟨"conv_a", "tt", "cc", "", [], "general", 3, ⟨2024, 3, 1⟩, ⟨2024, 3, 1⟩, []⟩

/-- A store holding `convC3` at `conversations/2024/03/conv_a.json`. -/
def treeC3 : ConvTree := [("2024", [("03", [("conv_a", convC3)])])]

/-- A conversation for which every score component fires: querying
`alpha` with tag filter `beta` gives full title, tag and summary overlap,
maximal importance, and a zero-day age. -/
def convC6 : Conv :=
  ⟨"conv_3", "alpha", "cc", "alpha", ["beta"], "general", 5, ⟨2024, 3, 1⟩,
   ⟨2024, 3, 1⟩, []⟩

/-- A conversation whose title `"the"` is a stopword and therefore
tokenizes to no keyword at all. -/
def convC4 : Conv :=
  ⟨"conv_2", "the", "cc", "", [], "general", 3, ⟨2024, 3, 1⟩,
   ⟨2024, 3, 1⟩, []⟩

/-- A conversation created on 2024-03-20, i.e. *after* the 10th of its
month; `save_conversation` files it under `conversations/2024/03/`. -/
def convC9 : Conv :=
  ⟨"conv_a", "tt", "cc", "", [], "general", 3, ⟨2024, 3, 20⟩,
   ⟨2024, 3, 20⟩, []⟩

/-- The store holding `convC9` at its derived path. -/
def treeC9 : ConvTree := [("2024", [("03", [("conv_a", convC9)])])]

/-- A conversation whose summary is longer than 200 characters: 200
copies of `a` (one 200-character word) followed by the word `qq`, which
therefore lies entirely beyond the truncation point of the stored
metadata summary. -/
def convC2 : Conv :=
  ⟨"conv_1", "tt", "cc", String.mk (List.replicate 200 'a') ++ " qq",
   [], "", 3, ⟨2024, 3, 1⟩, ⟨2024, 3, 1⟩, []⟩

/-! # Lemmas -/

/-! ## Association-list lemmas -/

@[simp]
theorem alookup_nil {κ α : Type} [DecidableEq κ] (k : κ) :
    alookup ([] : List (κ × α)) k = none := rfl

@[simp]
theorem alookup_cons {κ α : Type} [DecidableEq κ] (p : κ × α)
    (l : List (κ × α)) (k : κ) :
    alookup (p :: l) k = if p.1 = k then some p.2 else alookup l k := by
  by_cases h : p.1 = k <;> simp [alookup, List.find?_cons, h]

@[simp]
theorem alookup_aset_self {κ α : Type} [DecidableEq κ] (l : List (κ × α))
    (k : κ) (v : α) : alookup (aset l k v) k = some v := by
  induction l with
  | nil => simp [aset]
  | cons p l ih =>
    by_cases h : p.1 = k <;> simp [aset, h, ih]

theorem alookup_aset_ne {κ α : Type} [DecidableEq κ] (l : List (κ × α))
    (k k' : κ) (v : α) (h : k' ≠ k) :
    alookup (aset l k v) k' = alookup l k' := by
  induction l with
  | nil => simp [aset, Ne.symm h]
  | cons p l ih =>
    by_cases hp : p.1 = k
    · simp only [aset, if_pos hp, alookup_cons, hp]
      simp [Ne.symm h]
    · simp only [aset, if_neg hp, alookup_cons, ih]

@[simp]
theorem alookup_adel_self {κ α : Type} [DecidableEq κ] (l : List (κ × α))
    (k : κ) : alookup (adel l k) k = none := by
  induction l with
  | nil => rfl
  | cons p l ih =>
    by_cases h : p.1 = k
    · simpa [adel, h] using ih
    · simp only [adel, if_neg h, alookup_cons, if_neg h, ih]

theorem alookup_adel_ne {κ α : Type} [DecidableEq κ] (l : List (κ × α))
    (k k' : κ) (h : k' ≠ k) :
    alookup (adel l k) k' = alookup l k' := by
  induction l with
  | nil => rfl
  | cons p l ih =>
    by_cases hp : p.1 = k
    · have hp' : p.1 ≠ k' := by rw [hp]; exact Ne.symm h
      simp only [adel, if_pos hp, alookup_cons, if_neg hp', ih]
    · simp only [adel, if_neg hp, alookup_cons, ih]

/-! ## Set-as-list lemmas -/

theorem mem_saddElem_self (s : List String) (x : String) :
    x ∈ saddElem s x := by
  by_cases h : x ∈ s <;> simp [saddElem, h]

theorem saddElem_of_not_mem {s : List String} {x : String} (h : x ∉ s) :
    saddElem s x = s ++ [x] := by
  simp [saddElem, h]

theorem sdiscard_not_mem (s : List String) (x : String) :
    x ∉ sdiscard s x := by
  simp [sdiscard]

theorem sdiscard_of_not_mem {s : List String} {x : String} (h : x ∉ s) :
    sdiscard s x = s := by
  simp only [sdiscard]
  exact List.filter_eq_self.mpr (fun a ha => by
    simp only [decide_eq_true_eq]
    exact fun hax => h (hax ▸ ha))

theorem sdiscard_saddElem (s : List String) (x : String) (h : x ∉ s) :
    sdiscard (saddElem s x) x = s := by
  rw [saddElem_of_not_mem h]
  simp only [sdiscard, List.filter_append]
  rw [show (List.filter (fun y => decide (y ≠ x)) [x]) = [] by simp]
  rw [List.append_nil]
  exact List.filter_eq_self.mpr (fun a ha => by
    simp only [decide_eq_true_eq]
    exact fun hax => h (hax ▸ ha))

theorem sdiscard_idem (s : List String) (x : String) :
    sdiscard (sdiscard s x) x = sdiscard s x :=
  sdiscard_of_not_mem (sdiscard_not_mem s x)

theorem saddElem_idem (s : List String) (x : String) :
    saddElem (saddElem s x) x = saddElem s x := by
  rw [show saddElem (saddElem s x) x = if x ∈ saddElem s x then saddElem s x
        else saddElem s x ++ [x] from rfl]
  rw [if_pos (mem_saddElem_self s x)]

/-! ## Characterizing the index folds -/

/-- What `set_add_fold` does to each key: keys in the processed list get
the id added to their (possibly fresh) set, all other keys keep their
entry. -/
theorem alookup_set_add_fold (keys : List String) (cid : String) :
    ∀ m k, alookup (set_add_fold m keys cid) k =
      if k ∈ keys then some (saddElem ((alookup m k).getD []) cid)
      else alookup m k := by
  induction keys with
  | nil => intro m k; simp [set_add_fold]
  | cons k0 rest ih =>
    intro m k
    have step : set_add_fold m (k0 :: rest) cid =
        set_add_fold (aset m k0 (saddElem ((alookup m k0).getD []) cid)) rest cid := rfl
    rw [step, ih]
    by_cases hk : k ∈ rest
    · rw [if_pos hk, if_pos (List.mem_cons_of_mem _ hk)]
      by_cases hk0 : k = k0
      · subst hk0
        rw [alookup_aset_self]
        simp only [Option.getD_some]
        rw [saddElem_idem]
      · rw [alookup_aset_ne _ _ _ _ hk0]
    · rw [if_neg hk]
      by_cases hk0 : k = k0
      · subst hk0
        rw [if_pos (List.mem_cons_self _ _), alookup_aset_self]
      · rw [alookup_aset_ne _ _ _ _ hk0,
          if_neg (by simp [hk0, hk])]

/-- The entry a key holds after `set_remove_fold`, in terms of its entry
before: processed keys lose the id (and are deleted if that empties
them), all other keys are untouched. -/
def removedEntry (before : Option (List String)) (cid : String) :
    Option (List String) :=
  match before with
  | none => none
  | some s =>
    let s' := sdiscard s cid
    if s'.isEmpty then none else some s'

theorem alookup_set_remove_fold (keys : List String) (cid : String) :
    ∀ m k, alookup (set_remove_fold m keys cid) k =
      if k ∈ keys then removedEntry (alookup m k) cid
      else alookup m k := by
  induction keys with
  | nil => intro m k; simp [set_remove_fold]
  | cons k0 rest ih =>
    intro m k
    have step : set_remove_fold m (k0 :: rest) cid =
        set_remove_fold
          (match alookup m k0 with
           | none => m
           | some s =>
             let s' := sdiscard s cid
             if s'.isEmpty then adel m k0 else aset m k0 s') rest cid := rfl
    rw [step, ih]
    -- characterize the one-step-updated map at every key
    have hstep : ∀ k', alookup
        (match alookup m k0 with
         | none => m
         | some s =>
           let s' := sdiscard s cid
           if s'.isEmpty then adel m k0 else aset m k0 s') k' =
        if k' = k0 then removedEntry (alookup m k0) cid
        else alookup m k' := by
      intro k'
      cases hm : alookup m k0 with
      | none =>
        simp only [removedEntry]
        by_cases hk' : k' = k0
        · subst hk'; rw [if_pos rfl, hm]
        · rw [if_neg hk']
      | some s =>
        by_cases hs : (sdiscard s cid).isEmpty
        · simp only [if_pos hs]
          by_cases hk' : k' = k0
          · subst hk'
            rw [alookup_adel_self, if_pos rfl]
            simp [removedEntry, hs]
          · rw [alookup_adel_ne _ _ _ hk', if_neg hk']
        · simp only [if_neg hs]
          by_cases hk' : k' = k0
          · subst hk'
            rw [alookup_aset_self, if_pos rfl]
            simp [removedEntry, hs]
          · rw [alookup_aset_ne _ _ _ _ hk', if_neg hk']
    rw [hstep k]
    by_cases hk0 : k = k0
    · subst hk0
      rw [if_pos rfl, if_pos (List.mem_cons_self _ _)]
      by_cases hk : k ∈ rest
      · rw [if_pos hk]
        -- removedEntry is idempotent
        cases hm : alookup m k with
        | none => simp [removedEntry]
        | some s =>
          simp only [removedEntry]
          by_cases hs : (sdiscard s cid).isEmpty
          · rw [if_pos hs]
          · rw [if_neg hs]
            simp only [removedEntry, sdiscard_idem]
            rw [if_neg hs]
      · rw [if_neg hk]
    · rw [if_neg hk0]
      by_cases hk : k ∈ rest
      · rw [if_pos hk, if_pos (List.mem_cons_of_mem _ hk)]
      · rw [if_neg hk, if_neg (by simp [hk0, hk])]

/-! ## The deduplication fold of `load_all_solutions` -/

/-- Entries of the `unique_solutions` dict are keyed by their value's id. -/
theorem dedup_step_key (acc : List (String × Sol)) (s : Sol)
    (h : ∀ p ∈ acc, p.1 = p.2.id) :
    ∀ p ∈ dedup_step acc s, p.1 = p.2.id := by
  intro p hp
  unfold dedup_step at hp
  cases hf : acc.find? (fun p => p.1 = s.id) with
  | none =>
    rw [hf] at hp
    rcases List.mem_append.1 hp with h1 | h1
    · exact h p h1
    · simp only [List.mem_singleton] at h1
      subst h1; rfl
  | some p0 =>
    rw [hf] at hp
    dsimp only at hp
    by_cases hlt : p0.2.reference_count < s.reference_count
    · rw [if_pos hlt] at hp
      rcases List.mem_map.1 hp with ⟨q, hq, hq2⟩
      by_cases hqid : q.1 = s.id
      · rw [if_pos hqid] at hq2; subst hq2; rfl
      · rw [if_neg hqid] at hq2; subst hq2; exact h q hq
    · rw [if_neg hlt] at hp
      exact h p hp

/-- `dedup_step` keeps the key sequence, except that a fresh id is
appended. -/
theorem dedup_step_keys (acc : List (String × Sol)) (s : Sol) :
    (dedup_step acc s).map Prod.fst = acc.map Prod.fst ∨
    ((dedup_step acc s).map Prod.fst = acc.map Prod.fst ++ [s.id] ∧
      s.id ∉ acc.map Prod.fst) := by
  unfold dedup_step
  cases hf : acc.find? (fun p => p.1 = s.id) with
  | none =>
    right
    constructor
    · simp
    · intro hmem
      rcases List.mem_map.1 hmem with ⟨q, hq, hq2⟩
      have := List.find?_eq_none.1 hf q hq
      simp [hq2] at this
  | some p0 =>
    dsimp only
    by_cases hlt : p0.2.reference_count < s.reference_count
    · left
      rw [if_pos hlt, List.map_map]
      exact List.map_congr_left (fun q _ => by
        by_cases hq : q.1 = s.id
        · simp [hq]
        · simp [hq])
    · left; rw [if_neg hlt]

theorem dedup_step_nodup (acc : List (String × Sol)) (s : Sol)
    (h : (acc.map Prod.fst).Nodup) :
    ((dedup_step acc s).map Prod.fst).Nodup := by
  rcases dedup_step_keys acc s with hk | ⟨hk, hnm⟩
  · rw [hk]; exact h
  · rw [hk]
    refine List.Nodup.append h (List.nodup_singleton _) ?_
    intro a ha hb
    rw [List.mem_singleton] at hb
    subst hb
    exact hnm ha

/-- Every value in the dict after a step was a value before, or is the
solution just processed. -/
theorem dedup_step_values (acc : List (String × Sol)) (s : Sol) :
    ∀ p ∈ dedup_step acc s, p.2 ∈ acc.map Prod.snd ∨ p.2 = s := by
  intro p hp
  unfold dedup_step at hp
  cases hf : acc.find? (fun p => p.1 = s.id) with
  | none =>
    rw [hf] at hp
    rcases List.mem_append.1 hp with h1 | h1
    · exact Or.inl (List.mem_map_of_mem _ h1)
    · simp only [List.mem_singleton] at h1
      subst h1; exact Or.inr rfl
  | some p0 =>
    rw [hf] at hp
    dsimp only at hp
    by_cases hlt : p0.2.reference_count < s.reference_count
    · rw [if_pos hlt] at hp
      rcases List.mem_map.1 hp with ⟨q, hq, hq2⟩
      by_cases hqid : q.1 = s.id
      · rw [if_pos hqid] at hq2; subst hq2; exact Or.inr rfl
      · rw [if_neg hqid] at hq2; subst hq2
        exact Or.inl (List.mem_map_of_mem _ hq)
    · rw [if_neg hlt] at hp
      exact Or.inl (List.mem_map_of_mem _ hp)

/-- A step never loses a key, and never lowers the reference count held
at a key. -/
theorem dedup_step_mono (acc : List (String × Sol)) (s : Sol)
    (hkey : ∀ p ∈ acc, p.1 = p.2.id)
    (hnd : (acc.map Prod.fst).Nodup) :
    ∀ p ∈ acc, ∃ q ∈ dedup_step acc s,
      q.1 = p.1 ∧ p.2.reference_count ≤ q.2.reference_count := by
  intro p hp
  unfold dedup_step
  cases hf : acc.find? (fun p => p.1 = s.id) with
  | none =>
    exact ⟨p, List.mem_append.2 (Or.inl hp), rfl, le_refl _⟩
  | some p0 =>
    have hp0mem : p0 ∈ acc := List.mem_of_find?_eq_some hf
    have hp0id : p0.1 = s.id := by
      have := List.find?_some hf
      simpa using this
    dsimp only
    by_cases hlt : p0.2.reference_count < s.reference_count
    · rw [if_pos hlt]
      by_cases hpid : p.1 = s.id
      · -- p is the entry found: same key and the key sequence is nodup
        have hpp0 : p = p0 := by
          have hinj := List.inj_on_of_nodup_map hnd
          exact hinj hp hp0mem (by rw [hpid, hp0id])
        refine ⟨(s.id, s), ?_, ?_, ?_⟩
        · rcases List.mem_map.1 (List.mem_map_of_mem
            (fun q => if q.1 = s.id then (s.id, s) else q) hp) with _
          exact List.mem_map.2 ⟨p, hp, by rw [if_pos hpid]⟩
        · simp [hpid]
        · subst hpp0
          exact le_of_lt hlt
      · refine ⟨p, ?_, rfl, le_refl _⟩
        exact List.mem_map.2 ⟨p, hp, by rw [if_neg hpid]⟩
    · rw [if_neg hlt]
      exact ⟨p, hp, rfl, le_refl _⟩

/-- After a step, the processed solution's id holds a count at least as
high as its own. -/
theorem dedup_step_covers (acc : List (String × Sol)) (s : Sol) :
    ∃ q ∈ dedup_step acc s,
      q.1 = s.id ∧ s.reference_count ≤ q.2.reference_count := by
  unfold dedup_step
  cases hf : acc.find? (fun p => p.1 = s.id) with
  | none =>
    exact ⟨(s.id, s), List.mem_append.2 (Or.inr (List.mem_singleton.2 rfl)),
      rfl, le_refl _⟩
  | some p0 =>
    have hp0mem : p0 ∈ acc := List.mem_of_find?_eq_some hf
    have hp0id : p0.1 = s.id := by
      have := List.find?_some hf
      simpa using this
    dsimp only
    by_cases hlt : p0.2.reference_count < s.reference_count
    · rw [if_pos hlt]
      refine ⟨(s.id, s), ?_, rfl, le_refl _⟩
      exact List.mem_map.2 ⟨p0, hp0mem, by rw [if_pos hp0id]⟩
    · rw [if_neg hlt]
      exact ⟨p0, hp0mem, hp0id, not_lt.1 hlt⟩

/-- The full invariant of the deduplication fold. -/
theorem dedup_fold_spec (sols : List Sol) : ∀ acc : List (String × Sol),
    (∀ p ∈ acc, p.1 = p.2.id) →
    ((acc.map Prod.fst).Nodup) →
    (∀ p ∈ sols.foldl dedup_step acc, p.1 = p.2.id) ∧
    (((sols.foldl dedup_step acc).map Prod.fst).Nodup) ∧
    (∀ p ∈ sols.foldl dedup_step acc,
      p.2 ∈ acc.map Prod.snd ∨ p.2 ∈ sols) ∧
    (∀ p ∈ acc, ∃ q ∈ sols.foldl dedup_step acc,
      q.1 = p.1 ∧ p.2.reference_count ≤ q.2.reference_count) ∧
    (∀ s ∈ sols, ∃ q ∈ sols.foldl dedup_step acc,
      q.1 = s.id ∧ s.reference_count ≤ q.2.reference_count) := by
  induction sols with
  | nil =>
    intro acc h1 h2
    refine ⟨h1, h2, ?_, ?_, ?_⟩
    · intro p hp; exact Or.inl (List.mem_map_of_mem _ hp)
    · intro p hp; exact ⟨p, hp, rfl, le_refl _⟩
    · intro s hs; cases hs
  | cons s rest ih =>
    intro acc h1 h2
    have h1' := dedup_step_key acc s h1
    have h2' := dedup_step_nodup acc s h2
    obtain ⟨i1, i2, i3, i4, i5⟩ := ih (dedup_step acc s) h1' h2'
    have hfold : (s :: rest).foldl dedup_step acc =
        rest.foldl dedup_step (dedup_step acc s) := rfl
    rw [hfold]
    refine ⟨i1, i2, ?_, ?_, ?_⟩
    · intro p hp
      rcases i3 p hp with h | h
      · rcases List.mem_map.1 h with ⟨q, hq, hq2⟩
        rcases dedup_step_values acc s q hq with hv | hv
        · exact Or.inl (hq2 ▸ hv)
        · exact Or.inr (by rw [← hq2, hv]; exact List.mem_cons_self _ _)
      · exact Or.inr (List.mem_cons_of_mem _ h)
    · intro p hp
      obtain ⟨q', hq', hkey', hle'⟩ := dedup_step_mono acc s h1 h2 p hp
      obtain ⟨q, hq, hkey, hle⟩ := i4 q' hq'
      exact ⟨q, hq, hkey.trans hkey', le_trans hle' hle⟩
    · intro t ht
      rcases List.mem_cons.1 ht with rfl | ht
      · obtain ⟨q', hq', hkey', hle'⟩ := dedup_step_covers acc t
        obtain ⟨q, hq, hkey, hle⟩ := i4 q' hq'
        exact ⟨q, hq, hkey.trans hkey', le_trans hle' hle⟩
      · exact i5 t ht

/-! ## Loading from a single-file store -/

/-- Loading the only stored conversation: whether the fast (current-date)
path hits or the full scan runs, the raw record comes back with the
in-memory repair applied. -/
theorem load_conversation_single (env : LockEnv) (yn mn stem : String)
    (rec : Conv) (now : DateTime)
    (hy : pyIsDigit yn = true)
    (henv : ∀ p, env p = true) :
    load_conversation env [(yn, [(mn, [(stem, rec)])])] now stem =
      some (fix_conversation_data rec) := by
  have hload : ∀ p, load_conversation_from_file env p rec =
      some (fix_conversation_data rec) := by
    intro p
    simp [load_conversation_from_file, file_lock, henv]
  have hscan : treeScan [(yn, [(mn, [(stem, rec)])])] stem =
      some (yn, mn, rec) := by
    simp [treeScan, List.findSome?_cons, hy, alookup_cons]
  simp only [load_conversation]
  by_cases h1 : yn = toString now.year
  · by_cases h2 : mn = pad2 now.month
    · rw [show treeGet [(yn, [(mn, [(stem, rec)])])]
          (toString now.year) (pad2 now.month) stem = some rec by
        simp [treeGet, alookup_cons, h1, h2]]
      exact hload _
    · rw [show treeGet [(yn, [(mn, [(stem, rec)])])]
          (toString now.year) (pad2 now.month) stem = none by
        simp [treeGet, alookup_cons, h1, h2]]
      rw [hscan]
      exact hload _
  · rw [show treeGet [(yn, [(mn, [(stem, rec)])])]
        (toString now.year) (pad2 now.month) stem = none by
      simp [treeGet, alookup_cons, h1]]
    rw [hscan]
    exact hload _

/-! ## The shape of `list_conversations` entries -/

/-- Destructuring membership in `list_entries`: every emitted entry comes
from a digit-named year directory and month directory that passed the
first-of-month date filter, and its stem starts with `conv_`. -/
theorem mem_list_entries {tree : ConvTree} {sd ed : Option DateTime}
    {e : String × String × String} (he : e ∈ list_entries tree sd ed) :
    ∃ yd ∈ sortDescBy tree, ∃ md ∈ sortDescBy yd.2, ∃ f ∈ sortDescBy md.2,
      e = (yd.1, md.1, f.1) ∧
      pyIsDigit yd.1 = true ∧ pyIsDigit md.1 = true ∧
      (∀ s, sd = some s →
        dateLt ⟨strToNat yd.1, strToNat md.1, 1⟩ s = false) ∧
      (∀ x, ed = some x →
        dateLt x ⟨strToNat yd.1, strToNat md.1, 1⟩ = false) ∧
      pyStartsWith f.1 "conv_" = true := by
  unfold list_entries at he
  rcases List.mem_flatMap.1 he with ⟨yd, hyd, he⟩
  unfold year_block at he
  by_cases hy : pyIsDigit yd.1
  · rw [if_neg (by simp [hy])] at he
    rcases List.mem_flatMap.1 he with ⟨md, hmd, he⟩
    unfold month_block at he
    dsimp only at he
    by_cases hm : pyIsDigit md.1
    · rw [if_neg (by simp [hm])] at he
      by_cases hsd : sd.any (fun s =>
          dateLt ⟨strToNat yd.1, strToNat md.1, 1⟩ s) = true
      · rw [if_pos hsd] at he
        cases he
      · rw [if_neg hsd] at he
        by_cases hed : ed.any (fun x =>
            dateLt x ⟨strToNat yd.1, strToNat md.1, 1⟩) = true
        · rw [if_pos hed] at he
          cases he
        · rw [if_neg hed] at he
          rcases List.mem_filterMap.1 he with ⟨f, hf, hfe⟩
          by_cases hpre : pyStartsWith f.1 "conv_"
          · rw [if_pos hpre] at hfe
            refine ⟨yd, hyd, md, hmd, f, hf, (Option.some.inj hfe).symm,
              hy, hm, ?_, ?_, hpre⟩
            · intro s hs
              subst hs
              simpa [Option.any] using hsd
            · intro x hx
              subst hx
              simpa [Option.any] using hed
          · rw [if_neg hpre] at hfe
            cases hfe
    · rw [if_pos (by simp [hm])] at he
      cases he
  · rw [if_pos (by simp [hy])] at he
    cases he

/-- Only `conv_`-prefixed stems are ever listed. -/
theorem mem_list_conversations_startsWith (tree : ConvTree)
    (limit : Option Nat) (sd ed : Option DateTime) (cid : String)
    (h : cid ∈ list_conversations tree limit sd ed) :
    pyStartsWith cid "conv_" = true := by
  have hfull : cid ∈ (list_entries tree sd ed).map (fun e => e.2.2) := by
    unfold list_conversations pyTrunc at h
    cases limit with
    | none => exact h
    | some k =>
      dsimp only at h
      by_cases hk : k ≠ 0
      · rw [if_pos hk] at h
        exact (List.take_sublist _ _).subset h
      · rw [if_neg hk] at h
        exact h
  rcases List.mem_map.1 hfull with ⟨e, he, rfl⟩
  obtain ⟨yd, _, md, _, f, _, heq, _, _, _, _, hpre⟩ := mem_list_entries he
  rw [heq]
  exact hpre

/-! ## Ordering of the `list_conversations` traversal -/

theorem str_data_inj {s t : String} (h : s.data = t.data) : s = t :=
  String.ext h

/-- Every entry a month block emits is tagged with that year and month
directory name. -/
theorem mem_month_block {yn : String} {sd ed : Option DateTime}
    {md : String × List (String × Conv)} {e : String × String × String}
    (he : e ∈ month_block yn sd ed md) : e.1 = yn ∧ e.2.1 = md.1 := by
  unfold month_block at he
  dsimp only at he
  by_cases hm : pyIsDigit md.1
  · rw [if_neg (by simp [hm])] at he
    by_cases hsd : sd.any (fun s =>
        dateLt ⟨strToNat yn, strToNat md.1, 1⟩ s) = true
    · rw [if_pos hsd] at he
      cases he
    · rw [if_neg hsd] at he
      by_cases hed : ed.any (fun x =>
          dateLt x ⟨strToNat yn, strToNat md.1, 1⟩) = true
      · rw [if_pos hed] at he
        cases he
      · rw [if_neg hed] at he
        rcases List.mem_filterMap.1 he with ⟨f, _, hfe⟩
        by_cases hpre : pyStartsWith f.1 "conv_"
        · rw [if_pos hpre] at hfe
          rw [← Option.some.inj hfe]
          exact ⟨rfl, rfl⟩
        · rw [if_neg hpre] at hfe
          cases hfe
  · rw [if_pos (by simp [hm])] at he
    cases he

theorem mem_year_block {sd ed : Option DateTime}
    {yd : String × List (String × List (String × Conv))}
    {e : String × String × String}
    (he : e ∈ year_block sd ed yd) : e.1 = yd.1 := by
  unfold year_block at he
  by_cases hy : pyIsDigit yd.1
  · rw [if_neg (by simp [hy])] at he
    rcases List.mem_flatMap.1 he with ⟨md, _, he⟩
    exact (mem_month_block he).1
  · rw [if_pos (by simp [hy])] at he
    cases he

/-- Entries of a single month block share their year/month key, so the
descending key order holds trivially among them. -/
theorem pairwise_month_block (yn : String) (sd ed : Option DateTime)
    (md : String × List (String × Conv)) :
    List.Pairwise monthKeyGE (month_block yn sd ed md) := by
  refine List.pairwise_of_forall_mem_list ?_
  intro a ha b hb
  obtain ⟨ha1, ha2⟩ := mem_month_block ha
  obtain ⟨hb1, hb2⟩ := mem_month_block hb
  right
  exact ⟨hb1.trans ha1.symm, Or.inr (hb2.trans ha2.symm)⟩

/-- `sorted(…, reverse=True)` over directory entries with distinct names
yields strictly descending names. -/
theorem sortDescBy_pairwise_strict {α : Type} (l : List (String × α))
    (hnd : (l.map Prod.fst).Nodup) :
    List.Pairwise (fun a b => b.1.data < a.1.data) (sortDescBy l) := by
  have hperm := List.perm_insertionSort (nameGE (α := α)) l
  have hsorted : List.Pairwise (nameGE (α := α)) (sortDescBy l) :=
    List.sorted_insertionSort _ l
  have hnd' : ((sortDescBy l).map Prod.fst).Nodup :=
    ((hperm.map Prod.fst).nodup_iff).2 hnd
  have hne : List.Pairwise (fun a b : String × α => a.1 ≠ b.1)
      (sortDescBy l) := List.pairwise_map.1 hnd'
  refine (hsorted.and hne).imp ?_
  rintro a b ⟨hle, hne'⟩
  exact lt_of_le_of_ne hle (fun h => hne' (str_data_inj h).symm)

theorem pairwise_year_block (sd ed : Option DateTime)
    (yd : String × List (String × List (String × Conv)))
    (hnd : (yd.2.map Prod.fst).Nodup) :
    List.Pairwise monthKeyGE (year_block sd ed yd) := by
  unfold year_block
  by_cases hy : pyIsDigit yd.1
  · rw [if_neg (by simp [hy])]
    rw [List.pairwise_flatMap]
    constructor
    · intro md _
      exact pairwise_month_block _ _ _ _
    · refine (sortDescBy_pairwise_strict _ hnd).imp ?_
      intro m1 m2 hlt x hx y hy'
      obtain ⟨hx1, hx2⟩ := mem_month_block hx
      obtain ⟨hy1, hy2⟩ := mem_month_block hy'
      right
      refine ⟨hy1.trans hx1.symm, Or.inl ?_⟩
      rw [hy2, hx2]
      exact hlt
  · rw [if_pos (by simp [hy])]
    exact List.Pairwise.nil

/-- The full traversal is ordered: year directories strictly descending
by name, months strictly descending within a year — "newest year/month
first" for the uniform directory names the store writes. -/
theorem pairwise_list_entries (tree : ConvTree) (sd ed : Option DateTime)
    (h1 : (tree.map Prod.fst).Nodup)
    (h2 : ∀ yd ∈ tree, (yd.2.map Prod.fst).Nodup) :
    List.Pairwise monthKeyGE (list_entries tree sd ed) := by
  unfold list_entries
  rw [List.pairwise_flatMap]
  constructor
  · intro yd hyd
    exact pairwise_year_block sd ed yd
      (h2 yd ((List.perm_insertionSort _ _).mem_iff.1 hyd))
  · refine (sortDescBy_pairwise_strict _ h1).imp ?_
    intro y1 y2 hlt x hx y hy
    have hx1 := mem_year_block hx
    have hy1 := mem_year_block hy
    left
    rw [hy1, hx1]
    exact hlt

/-! # Claim theorems -/

/-- **C9** (counterexample).  `convC9` was created on 2024-03-20 and is
therefore stored under `conversations/2024/03/` (first conjunct: the
derived save path).  Listing with `end_date = 2024-03-10` and
`limit = 0` returns the id anyway: the date filter compares only the
*first of the month* (`date(2024, 3, 1) ≤ end_date` fails — but the
month passes the start side and `2024-03-01 > 2024-03-10` is false, so
the month is kept), even though the conversation's own date 2024-03-20
lies strictly after `end_date` (third conjunct); and the truthiness test
`if limit` means `limit = 0` does not truncate, so one id is returned,
not at most `0`. -/
theorem C9_counterexample :
    get_conversation_file_path convC9.id convC9.created_at =
      ["conversations", "2024", "03", "conv_a.json"] ∧
    list_conversations treeC9 (some 0) none (some ⟨2024, 3, 10⟩) =
      ["conv_a"] ∧
    dateLt ⟨2024, 3, 10⟩ convC9.created_at = true := by
  decide

/-- **C9** (amended).  `list_conversations` filters at *month*
granularity: it returns exactly the `conv_`-prefixed stems of digit-named
year/month directories whose first-of-month date lies within
`[startDate, endDate]`, ordered with the year/month directory names
descending (newest first for the store's uniform names), truncated to
`limit` only when `limit` is a positive number (`None` and `0` disable
truncation).  Conversations created after `endDate` within an included
month are still returned, as `C9_counterexample` shows. -/
theorem C9_amended_month_granularity :
    ∀ (tree : ConvTree) (limit : Option Nat) (sd ed : Option DateTime),
    (tree.map Prod.fst).Nodup →
    (∀ yd ∈ tree, (yd.2.map Prod.fst).Nodup) →
    (list_conversations tree limit sd ed =
      pyTrunc limit ((list_entries tree sd ed).map (fun e => e.2.2))) ∧
    List.Pairwise monthKeyGE (list_entries tree sd ed) ∧
    (∀ e ∈ list_entries tree sd ed,
      pyIsDigit e.1 = true ∧ pyIsDigit e.2.1 = true ∧
      (∀ s, sd = some s →
        dateLt ⟨strToNat e.1, strToNat e.2.1, 1⟩ s = false) ∧
      (∀ x, ed = some x →
        dateLt x ⟨strToNat e.1, strToNat e.2.1, 1⟩ = false) ∧
      pyStartsWith e.2.2 "conv_" = true) ∧
    (∀ k, limit = some k → k ≠ 0 →
      (list_conversations tree limit sd ed).length ≤ k) := by
  intro tree limit sd ed h1 h2
  refine ⟨rfl, pairwise_list_entries tree sd ed h1 h2, ?_, ?_⟩
  · intro e he
    obtain ⟨yd, _, md, _, f, _, heq, hy, hm, hsd, hed, hpre⟩ :=
      mem_list_entries he
    subst heq
    exact ⟨hy, hm, hsd, hed, hpre⟩
  · intro k hk hk0
    subst hk
    unfold list_conversations pyTrunc
    dsimp only
    rw [if_pos hk0]
    exact List.length_take_le _ _

/-- Witness for `C9_amended_month_granularity` at the concrete store
`treeC9` with a positive limit. -/
theorem C9_witness :
    List.Pairwise monthKeyGE (list_entries treeC9 none none) ∧
    (∀ e ∈ list_entries treeC9 none none,
      pyStartsWith e.2.2 "conv_" = true) ∧
    (∀ k, (some 5 : Option Nat) = some k → k ≠ 0 →
      (list_conversations treeC9 (some 5) none none).length ≤ k) := by
  have h := C9_amended_month_granularity treeC9 (some 5) none none
    (by decide) (by decide)
  exact ⟨h.2.1, fun e he => (h.2.2.1 e he).2.2.2.2, h.2.2.2⟩

set_option maxRecDepth 8000 in
/-- **C2** (counterexample).  `add_conversation` derives keywords from
the *full* summary, but the stored metadata truncates the summary to 200
characters, and `remove_conversation` recomputes the keywords from that
truncated text.  For `convC2`, whose summary token `qq` lies beyond
character 200, a successful `remove_conversation` leaves `conv_1` in the
keyword-index set of `qq` — contradicting "leaves R.id in no
keyword-index set". -/
theorem C2_counterexample :
    (remove_conversation (add_conversation emptyIndex convC2).2 "conv_1").1 =
      true ∧
    alookup (remove_conversation (add_conversation emptyIndex convC2).2
      "conv_1").2.keyword_index "qq" = some ["conv_1"] := by
  decide

/-- **C2** (amended).  For a record `R` freshly added to an index in
which `R.id` appears in no keyword or tag set (and no set is empty), a
successful `removeConversation R.id` leaves `R.id` in no keyword or tag
set, deletes every set it emptied, and drops the metadata entry —
*provided* the summary tokenizes to the same keywords as its first 200
characters (e.g. whenever the summary is at most 200 characters long);
keywords occurring only beyond the stored metadata's 200-character
truncation are not recomputed at removal time, as `C2_counterexample`
shows. -/
theorem C2_amended_remove_clears_and_prunes :
    ∀ (I₀ : SearchIndex) (R : Conv),
    (∀ k s, alookup I₀.keyword_index k = some s → R.id ∉ s ∧ s ≠ []) →
    (∀ t s, alookup I₀.tag_index t = some s → R.id ∉ s ∧ s ≠ []) →
    tokenize_text R.summary =
      tokenize_text (String.mk (R.summary.data.take 200)) →
    (remove_conversation (add_conversation I₀ R).2 R.id).1 = true ∧
    (∀ k s,
      alookup (remove_conversation (add_conversation I₀ R).2
        R.id).2.keyword_index k = some s → R.id ∉ s ∧ s ≠ []) ∧
    (∀ t s,
      alookup (remove_conversation (add_conversation I₀ R).2
        R.id).2.tag_index t = some s → R.id ∉ s ∧ s ≠ []) ∧
    alookup (remove_conversation (add_conversation I₀ R).2
      R.id).2.metadata_index R.id = none := by
  intro I₀ R hkw htag htrunc
  -- the keywords recomputed from the stored metadata coincide with those
  -- the add derived from the record
  have hkeys : extract_keywords_from_metadata (mk_metadata R) =
      extract_keywords R := by
    unfold extract_keywords_from_metadata extract_keywords mk_metadata
    dsimp only
    rw [← htrunc]
  have hmd : alookup (index_insert I₀ R).metadata_index R.id =
      some (mk_metadata R) := alookup_aset_self _ _ _
  -- reduce the removal to its three folds
  have hred : remove_conversation (add_conversation I₀ R).2 R.id =
      (true,
        ⟨set_remove_fold (index_insert I₀ R).keyword_index
          (extract_keywords_from_metadata (mk_metadata R)) R.id,
         set_remove_fold (index_insert I₀ R).tag_index
          (((mk_metadata R).tags.filter (fun t => !t.data.isEmpty)).map
            pyLower) R.id,
         adel (index_insert I₀ R).metadata_index R.id⟩) := by
    show remove_conversation (index_insert I₀ R) R.id = _
    unfold remove_conversation
    rw [hmd]
  -- generic argument, applied to the keyword and the tag side
  have main : ∀ (m₀ : List (String × List String)) (keys : List String),
      (∀ k s, alookup m₀ k = some s → R.id ∉ s ∧ s ≠ []) →
      ∀ k s, alookup (set_remove_fold (set_add_fold m₀ keys R.id) keys R.id)
        k = some s → R.id ∉ s ∧ s ≠ [] := by
    intro m₀ keys hfresh k s hs
    rw [alookup_set_remove_fold, alookup_set_add_fold] at hs
    by_cases hk : k ∈ keys
    · rw [if_pos hk, if_pos hk] at hs
      -- the set the add produced was s₀ ++ [R.id]; removal discards R.id
      have hnotin : R.id ∉ (alookup m₀ k).getD [] := by
        cases hm : alookup m₀ k with
        | none => simp
        | some s₀ =>
          simp only [Option.getD_some]
          exact (hfresh k s₀ hm).1
      have hdisc : sdiscard (saddElem ((alookup m₀ k).getD []) R.id) R.id =
          (alookup m₀ k).getD [] := sdiscard_saddElem _ _ hnotin
      simp only [removedEntry, hdisc] at hs
      by_cases hemp : ((alookup m₀ k).getD []).isEmpty
      · rw [if_pos hemp] at hs
        cases hs
      · rw [if_neg hemp] at hs
        have hsval : s = (alookup m₀ k).getD [] := (Option.some.inj hs).symm
        subst hsval
        refine ⟨hnotin, ?_⟩
        intro hnil
        rw [hnil] at hemp
        exact hemp rfl
    · rw [if_neg hk, if_neg hk] at hs
      exact hfresh k s hs
  rw [hred]
  refine ⟨rfl, ?_, ?_, ?_⟩
  · intro k s hs
    rw [hkeys] at hs
    exact main I₀.keyword_index (extract_keywords R) hkw k s hs
  · intro t s hs
    have hs' : alookup (set_remove_fold
        (set_add_fold I₀.tag_index
          ((R.tags.filter (fun x => !x.data.isEmpty)).map pyLower) R.id)
        ((R.tags.filter (fun x => !x.data.isEmpty)).map pyLower) R.id) t =
        some s := hs
    exact main I₀.tag_index
      ((R.tags.filter (fun x => !x.data.isEmpty)).map pyLower) htag t s hs'
  · exact alookup_adel_self _ _

/-- Witness for `C2_amended_remove_clears_and_prunes`: a fresh record
with an empty summary added to the empty index; the removal succeeds,
drops the metadata entry, and leaves the id in no keyword set. -/
theorem C2_witness :
    (remove_conversation (add_conversation emptyIndex convC3).2 "conv_a").1 =
      true ∧
    alookup (remove_conversation (add_conversation emptyIndex convC3).2
      "conv_a").2.metadata_index "conv_a" = none ∧
    (∀ k s,
      alookup (remove_conversation (add_conversation emptyIndex convC3).2
        "conv_a").2.keyword_index k = some s → "conv_a" ∉ s ∧ s ≠ []) := by
  have h := C2_amended_remove_clears_and_prunes emptyIndex convC3
    (fun _ _ hh => Option.noConfusion hh)
    (fun _ _ hh => Option.noConfusion hh)
    rfl
  exact ⟨h.1, h.2.2.2, h.2.1⟩

/-! ## Search round-trip lemmas -/

theorem mem_saddElem_of_mem {s : List String} {a : String} (x : String)
    (h : a ∈ s) : a ∈ saddElem s x := by
  unfold saddElem
  by_cases hx : x ∈ s
  · rw [if_pos hx]; exact h
  · rw [if_neg hx]; exact List.mem_append.2 (Or.inl h)

theorem mem_listUnion_left (a : String) (x y : List String) (h : a ∈ x) :
    a ∈ listUnion x y := by
  unfold listUnion
  induction y generalizing x with
  | nil => exact h
  | cons b ys ih => exact ih (saddElem x b) (mem_saddElem_of_mem b h)

/-- When every query token's keyword set is exactly `[cid]` and the query
is nonempty, the candidate union is exactly `[cid]`. -/
theorem search_by_keywords_all_hit (idx : SearchIndex) (Q : List String)
    (cid : String) (hQ : Q ≠ [])
    (hall : ∀ w ∈ Q, alookup idx.keyword_index w = some [cid]) :
    search_by_keywords idx Q = [cid] := by
  suffices h : ∀ (Q' : List String) (acc : List String),
      (∀ w ∈ Q', alookup idx.keyword_index w = some [cid]) →
      (acc = [] ∨ acc = [cid]) →
      Q'.foldl
        (fun acc w =>
          match alookup idx.keyword_index w with
          | some s => listUnion acc s
          | none => acc) acc = if Q' = [] then acc else [cid] by
    have hres := h Q [] hall (Or.inl rfl)
    rw [if_neg hQ] at hres
    exact hres
  intro Q'
  induction Q' with
  | nil => intro acc _ _; rw [if_pos rfl]; rfl
  | cons w ws ih =>
    intro acc hall' hacc
    have hw := hall' w (List.mem_cons_self _ _)
    have hunion : listUnion acc [cid] = [cid] := by
      rcases hacc with rfl | rfl
      · rfl
      · show saddElem [cid] cid = [cid]
        unfold saddElem
        rw [if_pos (List.mem_singleton.2 rfl)]
    rw [List.foldl_cons]
    rw [show (match alookup idx.keyword_index w with
         | some s => listUnion acc s
         | none => acc) = [cid] by rw [hw]; exact hunion]
    have hres := ih [cid] (fun v hv => hall' v (List.mem_cons_of_mem _ hv))
      (Or.inr rfl)
    rw [hres, if_neg (List.cons_ne_nil w ws)]
    by_cases hws : ws = []
    · rw [if_pos hws]
    · rw [if_neg hws]

theorem interCount_self (Q : List String) : interCount Q Q = Q.length := by
  unfold interCount
  rw [List.filter_eq_self.mpr]
  intro a ha
  exact decide_eq_true ha

/-- The zero-or-boost pattern of the score accumulation: a conditional
addition of a (conditionally) nonnegative boost never lowers the running
score. -/
theorem le_ite_add (c : Prop) [Decidable c] (s x : ℚ) (hx : c → 0 ≤ x) :
    s ≤ if c then s + x else s := by
  by_cases hc : c
  · rw [if_pos hc]
    linarith [hx hc]
  · rw [if_neg hc]

/-- A full title match alone puts the (uncapped, unrounded) score at or
above `1/2`; the remaining boosts are nonnegative and the cap keeps the
score at least `1/2`. -/
theorem score_half_le_of_title_match (md : Metadata) (Q : List String)
    (now : DateTime) (hQ : Q ≠ []) (hT : tokenize_text md.title = Q) :
    1 / 2 ≤ calculate_relevance_score md Q none now := by
  have hlen : 0 < Q.length := List.length_pos.2 hQ
  have hne : (Q.length : ℚ) ≠ 0 := Nat.cast_ne_zero.2 hlen.ne'
  have hx3 : (0 : ℚ) ≤
      (interCount Q (tokenize_text md.summary) : ℚ) / (Q.length : ℚ) * 0.2 := by
    positivity
  have ht4 : (0 : ℚ) ≤ (md.importance : ℚ) / 5 * 0.05 := by positivity
  have hx5 : ∀ d : ℤ, d ≤ 30 → (0 : ℚ) ≤ ((30 - d : ℤ) : ℚ) / 30 * 0.05 := by
    intro d hd
    have hnn : (0 : ℚ) ≤ ((30 - d : ℤ) : ℚ) := by
      exact_mod_cast sub_nonneg.2 hd
    exact mul_nonneg (div_nonneg hnn (by norm_num)) (by norm_num)
  unfold calculate_relevance_score
  dsimp only
  rw [hT, interCount_self, if_pos (And.intro hlen hQ), div_self hne]
  refine le_min ?_ (by norm_num)
  refine le_trans ?_ (le_ite_add _ _ _ (fun h => hx5 _ h))
  refine le_trans ?_ (le_add_of_nonneg_right ht4)
  refine le_trans ?_ (le_ite_add _ _ _ (fun _ => hx3))
  norm_num

/-- Positive rounded score from a score at least `1/2`. -/
theorem pyRound3_pos_of_half_le {x : ℚ} (h : 1 / 2 ≤ x) : 0 < pyRound3 x := by
  unfold pyRound3
  have h1 : (500 : ℤ) ≤ round (x * 1000) := by
    rw [round_eq]
    refine Int.le_floor.2 ?_
    push_cast
    linarith
  have h2 : (500 : ℚ) ≤ (round (x * 1000) : ℤ) := by exact_mod_cast h1
  have h3 : (0 : ℚ) < (round (x * 1000) : ℤ) := lt_of_lt_of_le (by norm_num) h2
  exact div_pos h3 (by norm_num)

/-- **C4** (counterexample).  The record's title `"the"` is a stopword:
it tokenizes to no keyword, so the query derived from the title finds no
candidates and the search returns the empty list — no entry for
`conv_2`, let alone one with a positive score. -/
theorem C4_counterexample :
    search_conversations (add_conversation emptyIndex convC4).2 convC4.title
      none none none none 10 ⟨2024, 3, 1⟩ = [] := by
  decide

/-- **C4** (amended).  If the title yields at least one token, adding the
record to the empty index and then searching its title (with any
positive limit and no filters) returns the record's id with a match
score strictly greater than 0.  The hypotheses forced by the
counterexamples: a stopword-only (or sub-2-character) title yields no
token and an empty result; and with `limit = 0` the truncation returns
nothing. -/
theorem C4_amended_title_roundtrip :
    ∀ (R : Conv) (now : DateTime) (limit : Nat),
    tokenize_text R.title ≠ [] → 1 ≤ limit →
    ∃ r ∈ search_conversations (add_conversation emptyIndex R).2 R.title
        none none none none limit now,
      r.id = R.id ∧ 0 < r.match_score := by
  intro R now limit hQ hlim
  have hQmem : ∀ w ∈ tokenize_text R.title, w ∈ extract_keywords R := by
    intro w hw
    unfold extract_keywords
    dsimp only
    by_cases hc : !R.category.data.isEmpty
    · rw [if_pos hc]
      exact mem_listUnion_left _ _ _
        (mem_listUnion_left _ _ _ (mem_listUnion_left _ _ _ hw))
    · rw [if_neg hc]
      exact mem_listUnion_left _ _ _ (mem_listUnion_left _ _ _ hw)
  have hkwlook : ∀ w ∈ tokenize_text R.title,
      alookup (add_conversation emptyIndex R).2.keyword_index w =
        some [R.id] := by
    intro w hw
    show alookup (set_add_fold [] (extract_keywords R) R.id) w = some [R.id]
    rw [alookup_set_add_fold, if_pos (hQmem w hw)]
    rfl
  have hcand : search_by_keywords (add_conversation emptyIndex R).2
      (tokenize_text R.title) = [R.id] :=
    search_by_keywords_all_hit _ _ _ hQ hkwlook
  have hmdlook : alookup (add_conversation emptyIndex R).2.metadata_index
      R.id = some (mk_metadata R) := alookup_aset_self _ _ _
  -- the single surviving candidate becomes the single result
  have hfR : search_filter (add_conversation emptyIndex R).2
      (tokenize_text R.title) none none none none now R.id =
      some (searchResultOf R.id (mk_metadata R)
        (pyRound3 (calculate_relevance_score (mk_metadata R)
          (tokenize_text R.title) none now))) := by
    unfold search_filter
    rw [hmdlook]
    dsimp only
    rw [if_neg (by simp [pyTruthyStr])]
    rw [if_neg (by simp)]
    rw [if_neg (by simp [pyTruthyStr])]
  have hsearch : search_conversations (add_conversation emptyIndex R).2
      R.title none none none none limit now =
      List.take limit [searchResultOf R.id (mk_metadata R)
        (pyRound3 (calculate_relevance_score (mk_metadata R)
          (tokenize_text R.title) none now))] := by
    simp only [search_conversations]
    rw [hcand]
    simp only [List.filterMap_cons, List.filterMap_nil, hfR]
    rfl
  rw [hsearch]
  obtain ⟨n, rfl⟩ : ∃ n, limit = n + 1 :=
    ⟨limit - 1, (Nat.succ_pred_eq_of_pos hlim).symm⟩
  refine ⟨searchResultOf R.id (mk_metadata R)
    (pyRound3 (calculate_relevance_score (mk_metadata R)
      (tokenize_text R.title) none now)), ?_, rfl, ?_⟩
  · simp
  · apply pyRound3_pos_of_half_le
    exact score_half_le_of_title_match (mk_metadata R) _ now hQ rfl

/-- Witness for `C4_amended_title_roundtrip`: the scenario record of the
spec added to the empty index and searched by its own title. -/
theorem C4_witness :
    ∃ r ∈ search_conversations (add_conversation emptyIndex convC7).2
        convC7.title none none none none 10 ⟨2024, 3, 2⟩,
      r.id = convC7.id ∧ 0 < r.match_score :=
  C4_amended_title_roundtrip convC7 ⟨2024, 3, 2⟩ 10 (by decide) (by decide)

/-! ## The relevance score against the spec's weighted sum -/

/-- Conditional accumulation as a sum: `if c then s + x else s` adds
`if c then x else 0`. -/
theorem acc_ite (c : Prop) [Decidable c] (s x : ℚ) :
    (if c then s + x else s) = s + (if c then x else 0) := by
  by_cases hc : c
  · rw [if_pos hc, if_pos hc]
  · rw [if_neg hc, if_neg hc, add_zero]

/-- The guarded overlap term of the code equals the spec's overlap ratio
(which is `0` both for an empty query and for an empty intersection). -/
theorem overlap_term_eq (n : ℕ) (Q : List String) (w : ℚ) :
    (if 0 < n ∧ Q ≠ [] then (n : ℚ) / (Q.length : ℚ) * w else 0) =
    (if Q = [] then 0 else (n : ℚ) / (Q.length : ℚ)) * w := by
  by_cases hq : Q = []
  · rw [if_neg (fun h => h.2 hq), if_pos hq, zero_mul]
  · by_cases hn : 0 < n
    · rw [if_pos (And.intro hn hq), if_neg hq]
    · rw [if_neg (fun h => hn h.1), if_neg hq, Nat.eq_zero_of_not_pos hn]
      norm_num

/-- The `if tag_matches > 0` guard of the tag term is redundant: a zero
count contributes zero anyway. -/
theorem count_term_eq (n : ℕ) (d w : ℚ) :
    (if 0 < n then (n : ℚ) / d * w else 0) = (n : ℚ) / d * w := by
  by_cases hn : 0 < n
  · rw [if_pos hn]
  · rw [if_neg hn, Nat.eq_zero_of_not_pos hn]
    norm_num

/-- `_calculate_relevance_score` computes exactly the spec's weighted
sum, capped at `1.0` — the refinement between the code's accumulation
and the spec's formula. -/
theorem calc_eq_min_spec (md : Metadata) (Q : List String)
    (tags : Option (List String)) (now : DateTime) :
    calculate_relevance_score md Q tags now =
      min (weighted_sum_spec md Q tags now) 1 := by
  unfold calculate_relevance_score weighted_sum_spec
  rcases tags with _ | ts
  · dsimp only
    simp only [acc_ite]
    rw [overlap_term_eq, overlap_term_eq]
    ring_nf
  · dsimp only
    by_cases hts : ts ≠ []
    · rw [if_pos hts, if_pos hts]
      simp only [acc_ite]
      rw [count_term_eq, overlap_term_eq, overlap_term_eq]
      ring_nf
    · rw [if_neg hts, if_neg hts]
      simp only [acc_ite]
      rw [overlap_term_eq, overlap_term_eq]
      ring_nf

/-- Every search result comes from some candidate that passed the
filter. -/
theorem mem_search_conversations {idx : SearchIndex} {query : String}
    {tags : Option (List String)} {category timeRange : Option String}
    {importanceMin : Option Nat} {limit : Nat} {now : DateTime}
    {r : SearchResult}
    (hr : r ∈ search_conversations idx query tags category timeRange
      importanceMin limit now) :
    ∃ cid, search_filter idx (tokenize_text query) tags category timeRange
      importanceMin now cid = some r := by
  simp only [search_conversations] at hr
  have h1 := (List.take_sublist _ _).subset hr
  have h2 := (List.perm_insertionSort scoreGE _).mem_iff.1 h1
  rcases List.mem_filterMap.1 h2 with ⟨cid, _, hf⟩
  exact ⟨cid, hf⟩

/-- A candidate that passed the filter yields the result record built
from its metadata and rounded relevance score. -/
theorem search_filter_some {idx : SearchIndex} {Q : List String}
    {tags : Option (List String)} {category timeRange : Option String}
    {importanceMin : Option Nat} {now : DateTime} {cid : String}
    {r : SearchResult}
    (h : search_filter idx Q tags category timeRange importanceMin now cid =
      some r) :
    ∃ md, alookup idx.metadata_index cid = some md ∧
      r = searchResultOf cid md
        (pyRound3 (calculate_relevance_score md Q tags now)) := by
  unfold search_filter at h
  cases hmd : alookup idx.metadata_index cid with
  | none =>
    rw [hmd] at h
    exact Option.noConfusion h
  | some md =>
    rw [hmd] at h
    dsimp only at h
    split_ifs at h <;>
      first
        | exact Option.noConfusion h
        | exact ⟨md, rfl, (Option.some.inj h).symm⟩

/-- Evaluation of `search_filter` at the `convC6` instance. -/
theorem searchC6_filter :
    search_filter (add_conversation emptyIndex convC6).2
      (tokenize_text "alpha") (some ["beta"]) none none none
      ⟨2024, 3, 1⟩ "conv_3" =
    some (searchResultOf "conv_3" (mk_metadata convC6)
      (pyRound3 (calculate_relevance_score (mk_metadata convC6)
        (tokenize_text "alpha") (some ["beta"]) ⟨2024, 3, 1⟩))) := by
  unfold search_filter
  rw [show alookup (add_conversation emptyIndex convC6).2.metadata_index
      "conv_3" = some (mk_metadata convC6) from by decide]
  dsimp only
  rw [if_neg (by simp [pyTruthyStr])]
  rw [if_neg (by simp)]
  rw [if_neg (by simp [pyTruthyStr])]

/-- Evaluation of the full search at the `convC6` instance: one result,
carrying the rounded score of its metadata. -/
theorem searchC6_eval :
    search_conversations (add_conversation emptyIndex convC6).2 "alpha"
      (some ["beta"]) none none none 10 ⟨2024, 3, 1⟩ =
    [searchResultOf "conv_3" (mk_metadata convC6)
      (pyRound3 (calculate_relevance_score (mk_metadata convC6)
        (tokenize_text "alpha") (some ["beta"]) ⟨2024, 3, 1⟩))] := by
  simp only [search_conversations]
  rw [show search_by_keywords (add_conversation emptyIndex convC6).2
      (tokenize_text "alpha") = ["conv_3"] from by decide]
  rw [if_pos (show (["beta"] : List String) ≠ [] by decide)]
  rw [if_pos (show (["conv_3"] : List String) ≠ [] by decide)]
  rw [show (["conv_3"] : List String).filter
      (· ∈ search_by_tags (add_conversation emptyIndex convC6).2 ["beta"]) =
      ["conv_3"] from by decide]
  simp only [List.filterMap_cons, List.filterMap_nil, searchC6_filter]
  rfl

/-- The spec's weighted sum at the `convC6` instance: all five components
fire and the sum is `1.1`, strictly above the cap. -/
theorem specC6_eval :
    weighted_sum_spec (mk_metadata convC6) (tokenize_text "alpha")
      (some ["beta"]) ⟨2024, 3, 1⟩ = 11 / 10 := by
  unfold weighted_sum_spec
  simp only [show interCount (tokenize_text "alpha")
      (tokenize_text (mk_metadata convC6).title) = 1 from by decide,
    show (tokenize_text "alpha").length = 1 from by decide,
    show interCount (dedupList (List.map pyLower ["beta"]))
      (dedupList (List.map pyLower (mk_metadata convC6).tags)) = 1 from by
        decide,
    show (dedupList (List.map pyLower ["beta"])).length = 1 from by decide,
    show interCount (tokenize_text "alpha")
      (tokenize_text (mk_metadata convC6).summary) = 1 from by decide,
    show daysOld ⟨2024, 3, 1⟩ (mk_metadata convC6).created_at = 0 from by
      decide,
    show (mk_metadata convC6).importance = 5 from rfl]
  rw [if_neg (show ¬ (tokenize_text "alpha") = [] from by decide)]
  rw [if_pos (show (["beta"] : List String) ≠ [] by decide)]
  rw [if_pos (show (0 : ℤ) ≤ 30 by norm_num)]
  push_cast
  norm_num

/-- **C6** (counterexample).  For `convC6` every score component fires
and the spec's weighted sum is `1.1`; but the match score the search
reports is `1.0` — the code caps the sum with `min(score, 1.0)` (and
rounds to three decimals), so the reported score is *not* the weighted
sum itself. -/
theorem C6_counterexample :
    (search_conversations (add_conversation emptyIndex convC6).2 "alpha"
      (some ["beta"]) none none none 10 ⟨2024, 3, 1⟩).map
        (fun r => r.match_score) = [1] ∧
    weighted_sum_spec (mk_metadata convC6) (tokenize_text "alpha")
      (some ["beta"]) ⟨2024, 3, 1⟩ = 11 / 10 ∧
    (1 : ℚ) ≠ 11 / 10 := by
  refine ⟨?_, specC6_eval, by norm_num⟩
  rw [searchC6_eval]
  simp only [List.map_cons, List.map_nil]
  show [pyRound3 (calculate_relevance_score (mk_metadata convC6)
    (tokenize_text "alpha") (some ["beta"]) ⟨2024, 3, 1⟩)] = [1]
  rw [calc_eq_min_spec, specC6_eval,
    min_eq_right (by norm_num : (1 : ℚ) ≤ 11 / 10)]
  unfold pyRound3
  rw [show ((1 : ℚ) * 1000) = ((1000 : ℤ) : ℚ) by norm_num, round_intCast]
  norm_num

/-- **C6** (amended).  For every query and filter set, every result of
`search_conversations` carries as match score the spec's weighted sum of
its metadata — title overlap 50%, tag overlap 30%, summary overlap 20%,
plus the additive importance boost and the ≤30-day recency boost —
*capped at 1.0 and rounded to three decimals*; the result list is sorted
in descending score order and holds at most `limit` entries. -/
theorem C6_amended_score_sorted_limited :
    ∀ (idx : SearchIndex) (query : String) (tags : Option (List String))
      (category timeRange : Option String) (importanceMin : Option Nat)
      (limit : Nat) (now : DateTime),
    (∀ r ∈ search_conversations idx query tags category timeRange
        importanceMin limit now,
      ∃ md, alookup idx.metadata_index r.id = some md ∧
        r.match_score = pyRound3
          (min (weighted_sum_spec md (tokenize_text query) tags now) 1)) ∧
    List.Sorted scoreGE (search_conversations idx query tags category
      timeRange importanceMin limit now) ∧
    (search_conversations idx query tags category timeRange importanceMin
      limit now).length ≤ limit := by
  intro idx query tags category timeRange importanceMin limit now
  refine ⟨?_, ?_, ?_⟩
  · intro r hr
    obtain ⟨cid, hf⟩ := mem_search_conversations hr
    obtain ⟨md, hmd, hre⟩ := search_filter_some hf
    subst hre
    refine ⟨md, hmd, ?_⟩
    show pyRound3 (calculate_relevance_score md (tokenize_text query)
      tags now) = _
    rw [calc_eq_min_spec]
  · exact List.Pairwise.sublist (List.take_sublist _ _)
      (List.sorted_insertionSort scoreGE _)
  · exact List.length_take_le _ _

/-- Witness for `C6_amended_score_sorted_limited` at the `convC6`
instance, its membership hypothesis discharged with the concrete result
of `searchC6_eval`. -/
theorem C6_witness :
    List.Sorted scoreGE (search_conversations
      (add_conversation emptyIndex convC6).2 "alpha" (some ["beta"])
      none none none 10 ⟨2024, 3, 1⟩) ∧
    (search_conversations (add_conversation emptyIndex convC6).2 "alpha"
      (some ["beta"]) none none none 10 ⟨2024, 3, 1⟩).length ≤ 10 ∧
    (∃ md, alookup (add_conversation emptyIndex convC6).2.metadata_index
        "conv_3" = some md ∧
      (searchResultOf "conv_3" (mk_metadata convC6)
        (pyRound3 (calculate_relevance_score (mk_metadata convC6)
          (tokenize_text "alpha") (some ["beta"]) ⟨2024, 3, 1⟩))).match_score =
        pyRound3 (min (weighted_sum_spec md (tokenize_text "alpha")
          (some ["beta"]) ⟨2024, 3, 1⟩) 1)) := by
  have h := C6_amended_score_sorted_limited
    (add_conversation emptyIndex convC6).2 "alpha" (some ["beta"])
    none none none 10 ⟨2024, 3, 1⟩
  refine ⟨h.2.1, h.2.2, ?_⟩
  have hmem : searchResultOf "conv_3" (mk_metadata convC6)
      (pyRound3 (calculate_relevance_score (mk_metadata convC6)
        (tokenize_text "alpha") (some ["beta"]) ⟨2024, 3, 1⟩)) ∈
      search_conversations (add_conversation emptyIndex convC6).2 "alpha"
        (some ["beta"]) none none none 10 ⟨2024, 3, 1⟩ := by
    rw [searchC6_eval]
    exact List.mem_singleton.2 rfl
  exact h.1 _ hmem

/-- **C8** (confirmed).  The in-memory repair of
`_fix_conversation_data`: a code-type solution with a missing (or empty)
`language` gets `infer_language content` — a non-empty language that is a
pure function of the content, hence identical across repeated loads; the
repair is idempotent, both per solution and per record; and loading a
stored record returns the repaired record while the store itself holds
the raw record untouched — the load path of the embedding is a pure read,
mirroring the absence of any write call in
`load_conversation`/`_load_conversation_from_file`/`_fix_conversation_data`. -/
theorem C8_idempotent_language_repair :
    (∀ s : Sol, s.type = "code" → pyFalsyStr s.language = true →
      (fix_solution s).language = some (infer_language s.content) ∧
      infer_language s.content ≠ "") ∧
    (∀ s : Sol, fix_solution (fix_solution s) = fix_solution s) ∧
    (∀ c : Conv, fix_conversation_data (fix_conversation_data c) =
      fix_conversation_data c) ∧
    (∀ (env : LockEnv) (yn mn : String) (rec : Conv) (now : DateTime),
      pyIsDigit yn = true → (∀ p, env p = true) →
      load_conversation env [(yn, [(mn, [(rec.id, rec)])])] now rec.id =
        some (fix_conversation_data rec)) := by
  have hinfer : ∀ content : String, infer_language content ≠ "" := by
    intro content
    unfold infer_language
    dsimp only
    split_ifs <;> decide
  have hfalsy : ∀ content : String,
      pyFalsyStr (some (infer_language content)) = false := by
    intro content
    unfold infer_language
    dsimp only
    split_ifs <;> decide
  have hone : ∀ s : Sol, s.type = "code" → pyFalsyStr s.language = true →
      fix_solution s = { s with language := some (infer_language s.content) } := by
    intro s h1 h2
    unfold fix_solution
    rw [if_pos ⟨h1, h2⟩]
  have hidem : ∀ s : Sol, fix_solution (fix_solution s) = fix_solution s := by
    intro s
    by_cases hc : s.type = "code" ∧ pyFalsyStr s.language = true
    · rw [hone s hc.1 hc.2]
      unfold fix_solution
      rw [if_neg (by simp [hfalsy])]
    · have : fix_solution s = s := by
        unfold fix_solution
        rw [if_neg (by simpa using hc)]
      rw [this, this]
  refine ⟨?_, hidem, ?_, ?_⟩
  · intro s h1 h2
    rw [hone s h1 h2]
    exact ⟨rfl, hinfer s.content⟩
  · intro c
    unfold fix_conversation_data
    simp only [List.map_map]
    congr 1
    exact List.map_congr_left (fun s _ => hidem s)
  · intro env yn mn rec now hy henv
    exact load_conversation_single env yn mn rec.id rec now hy henv

/-- Witness for `C8_idempotent_language_repair`: a legacy code-type
solution with no language and npm-flavoured content is repaired to
`bash`, and loading its record from the store returns the repaired
record. -/
theorem C8_witness :
    (fix_solution ⟨"sol_b", "code", "npx create-react-app my-app", none,
      "dd", [], 1/2, 0, none⟩).language = some "bash" ∧
    load_conversation (fun _ => true)
      [("2024", [("03", [("conv_b",
        ⟨"conv_b", "tt", "cc", "", [], "general", 3, ⟨2024, 3, 1⟩,
         ⟨2024, 3, 1⟩,
         [⟨"sol_b", "code", "npx create-react-app my-app", none, "dd", [],
           1/2, 0, none⟩]⟩)])])] ⟨2025, 5, 2⟩ "conv_b" =
      some ⟨"conv_b", "tt", "cc", "", [], "general", 3, ⟨2024, 3, 1⟩,
        ⟨2024, 3, 1⟩,
        [⟨"sol_b", "code", "npx create-react-app my-app", some "bash", "dd",
          [], 1/2, 0, none⟩]⟩ := by
  constructor
  · have h := C8_idempotent_language_repair.1
      ⟨"sol_b", "code", "npx create-react-app my-app", none, "dd", [],
        1/2, 0, none⟩ rfl rfl
    rw [h.1]
    decide
  · have h := C8_idempotent_language_repair.2.2.2 (fun _ => true) "2024" "03"
      ⟨"conv_b", "tt", "cc", "", [], "general", 3, ⟨2024, 3, 1⟩, ⟨2024, 3, 1⟩,
        [⟨"sol_b", "code", "npx create-react-app my-app", none, "dd", [],
          1/2, 0, none⟩]⟩ ⟨2025, 5, 2⟩ (by decide) (fun _ => rfl)
    rw [h]
    rfl

/-- **C10** (confirmed).  `save_conversation` accepts a record whose id
does not start with `conv_` (flag `true`, record visible at the derived
path) and `load_conversation` retrieves it from its year/month
directory; but `list_conversations` never returns such an id — from any
tree, with any limit or date filters — because it keeps only stems
starting with `conv_`; consequently `rebuild_index`, which iterates
`list_conversations()`, indexes nothing from a store holding only that
record. -/
theorem C10_non_conv_ids_unlisted :
    ∀ (R : Conv) (yn mn : String) (env : LockEnv) (now : DateTime)
      (fs : FS Conv) (bp tp : PathS) (bOk : Bool) (pd : Conv),
    pyStartsWith R.id "conv_" = false →
    pyIsDigit yn = true →
    (∀ p, env p = true) →
    ((save_conversation fs R bp bOk tp pd WriteOutcome.ok).1 = true ∧
      flookup (save_conversation fs R bp bOk tp pd WriteOutcome.ok).2
        (get_conversation_file_path R.id R.created_at) = some R) ∧
    load_conversation env [(yn, [(mn, [(R.id, R)])])] now R.id =
      some (fix_conversation_data R) ∧
    (∀ (tree : ConvTree) (limit : Option Nat) (sd ed : Option DateTime),
      R.id ∉ list_conversations tree limit sd ed) ∧
    alookup (rebuild_index env [(yn, [(mn, [(R.id, R)])])] now).metadata_index
      R.id = none := by
  intro R yn mn env now fs bp tp bOk pd hpre hy henv
  have hnolist : ∀ (tree : ConvTree) (limit : Option Nat)
      (sd ed : Option DateTime), R.id ∉ list_conversations tree limit sd ed := by
    intro tree limit sd ed hmem
    have := mem_list_conversations_startsWith tree limit sd ed R.id hmem
    rw [hpre] at this
    cases this
  refine ⟨?_, load_conversation_single env yn mn R.id R now hy henv,
    hnolist, ?_⟩
  · constructor
    · rfl
    · show flookup (FS.mk (aset _ _ R)) _ = some R
      exact alookup_aset_self _ _ _
  · -- the only stem in the store is R.id, which is never listed,
    -- so the rebuild folds over the empty id list
    have hempty : list_conversations [(yn, [(mn, [(R.id, R)])])]
        none none none = [] := by
      cases hl : list_conversations [(yn, [(mn, [(R.id, R)])])]
          none none none with
      | nil => rfl
      | cons cid rest =>
        have hcid : cid ∈ list_conversations [(yn, [(mn, [(R.id, R)])])]
            none none none := by rw [hl]; exact List.mem_cons_self _ _
        -- every listed id is a stem of the tree, i.e. R.id
        have hfull : cid ∈ (list_entries [(yn, [(mn, [(R.id, R)])])]
            none none).map (fun e => e.2.2) := hcid
        rcases List.mem_map.1 hfull with ⟨e, he, rfl⟩
        obtain ⟨yd, hyd, md, hmd, f, hf, heq, _, _, _, _, hpre'⟩ :=
          mem_list_entries he
        -- the tree is a single file: f must be (R.id, R)
        have hyd' : yd = (yn, [(mn, [(R.id, R)])]) := by
          have := (List.perm_insertionSort nameGE
            [(yn, [(mn, [(R.id, R)])])]).mem_iff.1 hyd
          simpa using this
        have hmd' : md = (mn, [(R.id, R)]) := by
          rw [hyd'] at hmd
          have := (List.perm_insertionSort nameGE
            [(mn, [(R.id, R)])]).mem_iff.1 hmd
          simpa using this
        have hf' : f = (R.id, R) := by
          rw [hmd'] at hf
          have := (List.perm_insertionSort nameGE [(R.id, R)]).mem_iff.1 hf
          simpa using this
        rw [heq, hf'] at hcid
        exact absurd hcid (hnolist _ _ _ _)
    unfold rebuild_index
    rw [hempty]
    rfl

/-- Witness for `C10_non_conv_ids_unlisted` at a concrete record with id
`mynote_1` stored under `2024/03`. -/
theorem C10_witness :
    load_conversation (fun _ => true)
      [("2024", [("03", [("mynote_1",
        ⟨"mynote_1", "tt", "cc", "", [], "general", 3, ⟨2024, 3, 1⟩,
         ⟨2024, 3, 1⟩, []⟩)])])] ⟨2025, 5, 2⟩ "mynote_1" =
      some ⟨"mynote_1", "tt", "cc", "", [], "general", 3, ⟨2024, 3, 1⟩,
        ⟨2024, 3, 1⟩, []⟩ ∧
    ("mynote_1" ∉ list_conversations
      [("2024", [("03", [("mynote_1",
        ⟨"mynote_1", "tt", "cc", "", [], "general", 3, ⟨2024, 3, 1⟩,
         ⟨2024, 3, 1⟩, []⟩)])])] none none none) ∧
    alookup (rebuild_index (fun _ => true)
      [("2024", [("03", [("mynote_1",
        ⟨"mynote_1", "tt", "cc", "", [], "general", 3, ⟨2024, 3, 1⟩,
         ⟨2024, 3, 1⟩, []⟩)])])] ⟨2025, 5, 2⟩).metadata_index
      "mynote_1" = none := by
  have h := C10_non_conv_ids_unlisted
    ⟨"mynote_1", "tt", "cc", "", [], "general", 3, ⟨2024, 3, 1⟩,
      ⟨2024, 3, 1⟩, []⟩ "2024" "03" (fun _ => true) ⟨2025, 5, 2⟩
    ⟨[]⟩ ["backups", "b.json"] ["conversations", "2024", "03", "t.tmp"]
    true ⟨"mynote_1", "tt", "cc", "", [], "general", 3, ⟨2024, 3, 1⟩,
      ⟨2024, 3, 1⟩, []⟩ rfl (by decide) (fun _ => rfl)
  exact ⟨h.2.1, h.2.2.1 _ none none none, h.2.2.2⟩

/-- **C5** (confirmed).  `load_all_solutions` (the deduplication of the
solutions gathered from individual and batch files) never returns two
solutions with the same id; every returned solution is one of the
gathered ones; and for every gathered solution the returned entry with
its id carries a `reference_count` at least as high — so when two files
contribute the same id with different counts, the variant with the
higher `reference_count` is the one returned. -/
theorem C5_load_all_solutions_dedup :
    ∀ indiv batch : List Sol,
    ((load_all_solutions indiv batch).map Sol.id).Nodup ∧
    (∀ t ∈ load_all_solutions indiv batch, t ∈ indiv ++ batch) ∧
    (∀ s ∈ indiv ++ batch, ∃ t ∈ load_all_solutions indiv batch,
      t.id = s.id ∧ s.reference_count ≤ t.reference_count) := by
  intro indiv batch
  obtain ⟨i1, i2, i3, _, i5⟩ :=
    dedup_fold_spec (indiv ++ batch) [] (by simp) (by simp)
  have hunf : load_all_solutions indiv batch =
      ((indiv ++ batch).foldl dedup_step []).map (·.2) := rfl
  refine ⟨?_, ?_, ?_⟩
  · rw [hunf, List.map_map]
    have heq : ((indiv ++ batch).foldl dedup_step []).map (Sol.id ∘ (·.2)) =
        ((indiv ++ batch).foldl dedup_step []).map Prod.fst :=
      List.map_congr_left (fun p hp => (i1 p hp).symm)
    rw [heq]
    exact i2
  · intro t ht
    rw [hunf] at ht
    rcases List.mem_map.1 ht with ⟨p, hp, rfl⟩
    rcases i3 p hp with h | h
    · simp at h
    · exact h
  · intro s hs
    obtain ⟨q, hq, hkey, hle⟩ := i5 s hs
    refine ⟨q.2, ?_, ?_, hle⟩
    · rw [hunf]
      exact List.mem_map_of_mem _ hq
    · rw [← i1 q hq]
      exact hkey

/-- Witness for `C5_load_all_solutions_dedup`: two variants of the same
solution id with reference counts 5 (individual file) and 3 (batch
file); the claim theorem yields a returned entry with that id and a
count of at least 5, i.e. the higher variant wins. -/
theorem C5_witness :
    (∀ t ∈ load_all_solutions
        [⟨"sol_a", "code", "cc", some "python", "dd", [], 1/2, 5, none⟩]
        [⟨"sol_a", "code", "c2", some "python", "dd", [], 1/2, 3, none⟩],
      t ∈ [⟨"sol_a", "code", "cc", some "python", "dd", [], 1/2, 5, none⟩] ++
        [⟨"sol_a", "code", "c2", some "python", "dd", [], 1/2, 3, none⟩]) ∧
    ∃ t ∈ load_all_solutions
        [⟨"sol_a", "code", "cc", some "python", "dd", [], 1/2, 5, none⟩]
        [⟨"sol_a", "code", "c2", some "python", "dd", [], 1/2, 3, none⟩],
      t.id = "sol_a" ∧ 5 ≤ t.reference_count := by
  refine ⟨(C5_load_all_solutions_dedup _ _).2.1, ?_⟩
  exact (C5_load_all_solutions_dedup
    [⟨"sol_a", "code", "cc", some "python", "dd", [], 1/2, 5, none⟩]
    [⟨"sol_a", "code", "c2", some "python", "dd", [], 1/2, 3, none⟩]).2.2
    ⟨"sol_a", "code", "cc", some "python", "dd", [], 1/2, 5, none⟩
    (List.mem_append.2 (Or.inl (List.mem_singleton.2 rfl)))

/-- **C1** (code bug evidence).  Write `"new"` over an existing file whose
content is `"old"`, with a backup successfully taken, and let
`json.dump` raise inside the temp-file `with` block (`failSerialize`).
The operation reports failure and the target still holds its pre-write
content, as the claim states — but the partially written temp file is
*not* deleted: the cleanup is guarded by `if 'temp_path' in locals()` and
`temp_path` is assigned only after `json.dump`/`fsync` complete, so a
serialization failure skips the cleanup.  (When the failure happens at
the rename step instead, after `temp_path` was assigned, the temp file
*is* deleted — fourth conjunct.) -/
theorem C1_serialize_failure_leaves_temp_file :
    (let target : PathS := ["conversations", "2024", "03", "conv_a.json"]
     let temp : PathS := ["conversations", "2024", "03", "conv_a_17.tmp"]
     let bak : PathS := ["backups", "conv_a_backup_1700000000.json"]
     let fs0 : FS String := ⟨[(target, "old")]⟩
     let rSer := atomic_write_json fs0 target "new" true bak true temp
       "partial" WriteOutcome.failSerialize
     let rRen := atomic_write_json fs0 target "new" true bak true temp
       "partial" WriteOutcome.failRename
     rSer.1 = false ∧
     flookup rSer.2 target = some "old" ∧
     flookup rSer.2 temp = some "partial" ∧
     rRen.1 = false ∧
     flookup rRen.2 target = some "old" ∧
     flookup rRen.2 temp = none) := by
  decide

/-- **C7** (confirmed).  `save_conversation` derives its target path
`conversations/{created_at.year}/{created_at.month:02d}/{id}.json` from
the record's `created_at`, hands exactly that path to the atomic-write
routine, succeeds (flag `true`, record visible at the derived path) when
the write goes through, and returns `false` on every failing outcome —
the body is wrapped in `try/except: return False`, so no exception
escapes (the model is a total function). -/
theorem C7_save_conversation_path_and_failure :
    ∀ (fs : FS Conv) (c : Conv) (bp tp : PathS) (bOk : Bool)
      (pd : Conv) (outcome : WriteOutcome),
    get_conversation_file_path c.id c.created_at =
      ["conversations", toString c.created_at.year, pad2 c.created_at.month,
       c.id ++ ".json"] ∧
    save_conversation fs c bp bOk tp pd outcome =
      atomic_write_json fs (get_conversation_file_path c.id c.created_at) c
        true bp bOk tp pd outcome ∧
    (outcome = WriteOutcome.ok →
      (save_conversation fs c bp bOk tp pd outcome).1 = true ∧
      flookup (save_conversation fs c bp bOk tp pd outcome).2
        (get_conversation_file_path c.id c.created_at) = some c) ∧
    (outcome ≠ WriteOutcome.ok →
      (save_conversation fs c bp bOk tp pd outcome).1 = false) := by
  intro fs c bp tp bOk pd outcome
  refine ⟨rfl, rfl, ?_, ?_⟩
  · rintro rfl
    refine ⟨rfl, ?_⟩
    show flookup (FS.mk (aset _ _ c)) _ = some c
    exact alookup_aset_self _ _ _
  · intro hne
    cases outcome with
    | ok => exact absurd rfl hne
    | failOpenTemp => rfl
    | failSerialize => rfl
    | failRename => rfl

/-- Witness for `C7_save_conversation_path_and_failure` at a concrete
record and outcome. -/
theorem C7_witness :
    get_conversation_file_path convC7.id convC7.created_at =
      ["conversations", "2024", "03", "conv_20240302_abc.json"] ∧
    (save_conversation ⟨[]⟩ convC7 ["backups", "b.json"] true
      ["conversations", "2024", "03", "t.tmp"] convC7 WriteOutcome.ok).1 = true ∧
    flookup (save_conversation ⟨[]⟩ convC7 ["backups", "b.json"] true
      ["conversations", "2024", "03", "t.tmp"] convC7 WriteOutcome.ok).2
      (get_conversation_file_path convC7.id convC7.created_at) = some convC7 := by
  have h := C7_save_conversation_path_and_failure ⟨[]⟩ convC7
    ["backups", "b.json"] ["conversations", "2024", "03", "t.tmp"] true convC7
    WriteOutcome.ok
  refine ⟨?_, (h.2.2.1 rfl).1, (h.2.2.1 rfl).2⟩
  rw [h.1]
  decide

/-- **C3** (counterexample).  The claim says a load whose lock
acquisition times out fails with a distinct timeout error raised to the
caller, distinguishable from a not-found result.  In the code,
`_load_conversation_from_file` and `load_conversation` catch *all*
exceptions and return `None`: loading an existing conversation under an
environment in which every lock acquisition times out produces exactly
the same result (`none`) as loading a missing conversation — the two are
indistinguishable at the public interface. -/
theorem C3_counterexample :
    -- lock times out on every path, the file exists:
    load_conversation (fun _ => false) treeC3 ⟨2025, 5, 2⟩ "conv_a" = none ∧
    -- locks fine, the file does not exist:
    load_conversation (fun _ => true) [] ⟨2025, 5, 2⟩ "conv_a" = none := by
  decide

/-- **C3** (amended).  The internal lock primitive `_file_lock` does have
a bounded timeout (default 30 s) and on expiry raises a `TimeoutError`
distinct from the other storage errors; but the public load operation
catches every exception and maps it to `None`, so the caller observes an
absent result, not a distinct timeout error. -/
theorem C3_amended_timeout_swallowed_to_none :
    lock_timeout = 30 ∧
    (∀ (env : LockEnv) (p : PathS), env p = false →
      file_lock env p = Except.error (StorageError.lockTimeout p)) ∧
    (∀ p : PathS, StorageError.lockTimeout p ≠ StorageError.ioError) ∧
    (∀ (env : LockEnv) (tree : ConvTree) (now : DateTime) (cid : String),
      (∀ p, env p = false) →
      load_conversation env tree now cid = none) := by
  refine ⟨rfl, ?_, ?_, ?_⟩
  · intro env p h
    simp [file_lock, h]
  · intro p h
    cases h
  · intro env tree now cid henv
    unfold load_conversation
    cases h1 : treeGet tree (toString now.year) (pad2 now.month) cid with
    | some rec => simp [h1, load_conversation_from_file, file_lock, henv]
    | none =>
      cases h2 : treeScan tree cid with
      | some y =>
        obtain ⟨yn, mn, rec⟩ := y
        simp [h1, h2, load_conversation_from_file, file_lock, henv]
      | none => simp [h1, h2]

/-- Witness for `C3_amended_timeout_swallowed_to_none` at a concrete
environment, path and store. -/
theorem C3_witness :
    file_lock (fun _ => false) ["conversations", "2024", "03", "conv_a.json"] =
      Except.error (StorageError.lockTimeout
        ["conversations", "2024", "03", "conv_a.json"]) ∧
    load_conversation (fun _ => false) treeC3 ⟨2025, 5, 2⟩ "conv_a" = none := by
  refine ⟨?_, ?_⟩
  · exact C3_amended_timeout_swallowed_to_none.2.1 (fun _ => false) _ rfl
  · exact C3_amended_timeout_swallowed_to_none.2.2.2 (fun _ => false) _ _ _
      (fun _ => rfl)

end Synapse
